import Mathlib

/-!
# Verification of the modubuild dependency-graph and bundler core

Shallow embedding of the repository's `DepGraph` class (module dependency
graph) and of the bundling pipeline of `AeroSSR` (`generateBundle`,
`resolveDependencies`, `minifyBundle`, bundle cache), together with proofs
of the specification's testable properties.

JS `Map`s and `Set`s are modelled as association lists / lists preserving
insertion order (JS maps and sets iterate in insertion order); `Set.add` is
idempotent, `Map.set` on a fresh key appends.  Methods that `throw` are
modelled with `Except`; since every throwing method of the source validates
before mutating, a thrown error leaves the receiver unchanged, which the
embedding renders by returning `Except.error` without a new graph value.
The unbounded JS recursions (`traverse`, `detectCycle`, `visit`,
`resolveDependencies`) are modelled with an explicit fuel argument whose
value is provably adequate, so the fuel-exhaustion branch is unreachable.
-/

deriving instance DecidableEq for Except

namespace ModuBuild

/-- JS `Map.get`: first binding of a key in an insertion-ordered map. -/
def lookupA {α : Type} (m : List (String × α)) (k : String) : Option α :=
  match m with
  | [] => none
  | (k₀, v) :: rest => if k₀ = k then some v else lookupA rest k

/-- JS `Map.delete`: drop the binding of the key, keeping order. -/
def eraseA {α : Type} (m : List (String × α)) (k : String) : List (String × α) :=
  match m with
  | [] => []
  | (k₀, v) :: rest =>
    if k₀ = k then eraseA rest k else (k₀, v) :: eraseA rest k

/-- JS `Map.get` followed by an in-place update of the stored value
(no-op when the key is absent). -/
def updateA {α : Type} (m : List (String × α)) (k : String) (f : α → α) :
    List (String × α) :=
  match m with
  | [] => []
  | (k₀, v) :: rest =>
    if k₀ = k then (k₀, f v) :: updateA rest k f
    else (k₀, v) :: updateA rest k f

/-- JS `Map.set` on a possibly-present key: replace in place, else append. -/
def mapSet {α : Type} (m : List (String × α)) (k : String) (v : α) :
    List (String × α) :=
  if (lookupA m k).isSome then updateA m k (fun _ => v) else m ++ [(k, v)]

/-- JS `Set.add`: idempotent, appends new elements at the end. -/
def setAdd (s : List String) (x : String) : List String :=
  if x ∈ s then s else s ++ [x]

/-- JS `Set.delete`. -/
def setDelete (s : List String) (x : String) : List String :=
  s.filter (fun y => y ≠ x)

/-- Error taxonomy of `DepGraph` (the source throws `Error` with a
message; the spec names the two structural kinds). -/
inductive GraphError : Type where
  | DuplicateModule : String → GraphError
  | UnknownModule : String → GraphError
deriving DecidableEq

/-- The `DepGraph` class state: `nodes` maps a module id to its metadata
(the source stores `{id, ...metadata, timestamp: Date.now()}`; the
metadata payload and the wall-clock timestamp are opaque to every claim
and are bundled as one abstract value of type `μ`).  `incomingEdges` and
`outgoingEdges` map a module id to a set of ids; `entryNodes` is the set
of entry points. -/
structure DepGraph (μ : Type) : Type where
  nodes : List (String × μ)
  incomingEdges : List (String × List String)
  outgoingEdges : List (String × List String)
  entryNodes : List String
deriving DecidableEq

/-- `new DepGraph()`. -/
def DepGraph.empty {μ : Type} : DepGraph μ := ⟨[], [], [], []⟩

/-- `this.nodes.has(id)`. -/
def DepGraph.hasNode {μ : Type} (g : DepGraph μ) (id : String) : Bool :=
  (lookupA g.nodes id).isSome

/-- `addModule(moduleId, metadata, isEntry)`: duplicate ids are rejected
before any mutation; otherwise the node is inserted with empty edge sets
and, when `isEntry`, added to the entry set. -/
def DepGraph.addModule {μ : Type} (g : DepGraph μ) (id : String) (meta : μ)
    (isEntry : Bool) : Except GraphError (DepGraph μ) :=
  if g.hasNode id then .error (.DuplicateModule id)
  else .ok
    { nodes := g.nodes ++ [(id, meta)]
      incomingEdges := g.incomingEdges ++ [(id, [])]
      outgoingEdges := g.outgoingEdges ++ [(id, [])]
      entryNodes := if isEntry then setAdd g.entryNodes id else g.entryNodes }

/-- `addDependency(fromId, toId)`: both endpoints are validated before
either adjacency set is touched. -/
def DepGraph.addDependency {μ : Type} (g : DepGraph μ) (fromId toId : String) :
    Except GraphError (DepGraph μ) :=
  if ¬ g.hasNode fromId then .error (.UnknownModule fromId)
  else if ¬ g.hasNode toId then .error (.UnknownModule toId)
  else .ok
    { g with
      outgoingEdges := updateA g.outgoingEdges fromId (fun s => setAdd s toId)
      incomingEdges := updateA g.incomingEdges toId (fun s => setAdd s fromId) }

/-- The graph state after an `addDependency` call: on a throw the receiver
is unchanged (the source validates both endpoints before mutating). -/
def DepGraph.addDependencyState {μ : Type} (g : DepGraph μ)
    (fromId toId : String) : DepGraph μ :=
  match g.addDependency fromId toId with
  | .ok g₁ => g₁
  | .error _ => g

/-- The graph state after an `addModule` call: on a throw the receiver is
unchanged (the duplicate check precedes every mutation). -/
def DepGraph.addModuleState {μ : Type} (g : DepGraph μ) (id : String) (meta : μ)
    (isEntry : Bool) : DepGraph μ :=
  match g.addModule id meta isEntry with
  | .ok g₁ => g₁
  | .error _ => g

/-- `this.outgoingEdges.get(id)` with the source's `if (outgoing)` guard:
an absent key behaves as the empty set. -/
def DepGraph.outgoing {μ : Type} (g : DepGraph μ) (id : String) : List String :=
  (lookupA g.outgoingEdges id).getD []

/-- `this.incomingEdges.get(id)`, absent key as the empty set. -/
def DepGraph.incoming {μ : Type} (g : DepGraph μ) (id : String) : List String :=
  (lookupA g.incomingEdges id).getD []

/-- `removeModule(moduleId)`: for every incoming neighbour delete `id`
from that neighbour's outgoing set, for every outgoing neighbour delete
`id` from that neighbour's incoming set, then delete `id`'s own records
and drop it from the entry set.  (On a well-formed graph both edge-map
entries for `id` exist, matching the source's unguarded `get`.) -/
def DepGraph.removeModule {μ : Type} (g : DepGraph μ) (id : String) :
    Except GraphError (DepGraph μ) :=
  if ¬ g.hasNode id then .error (.UnknownModule id)
  else
    let outE := (g.incoming id).foldl
      (fun m src => updateA m src (fun s => setDelete s id)) g.outgoingEdges
    let incE := (g.outgoing id).foldl
      (fun m tgt => updateA m tgt (fun s => setDelete s id)) g.incomingEdges
    .ok
      { nodes := eraseA g.nodes id
        outgoingEdges := eraseA outE id
        incomingEdges := eraseA incE id
        entryNodes := setDelete g.entryNodes id }

/-- `getModule(moduleId)`: a copy of the stored record, or a throw. -/
def DepGraph.getModule {μ : Type} (g : DepGraph μ) (id : String) :
    Except GraphError (String × μ) :=
  match lookupA g.nodes id with
  | some m => .ok (id, m)
  | none => .error (.UnknownModule id)

/-- Inner recursion of `getAllDependencies`: state is the pair
`(visited, dependencies)`; a dependency id is added to the result the
moment it is discovered, before recursing into it. -/
def DepGraph.gadGo {μ : Type} (g : DepGraph μ) :
    Nat → String → List String × List String → List String × List String
  | 0, _, st => st
  | fuel + 1, cur, (visited, deps) =>
    if cur ∈ visited then (visited, deps)
    else
      (g.outgoing cur).foldl
        (fun st dep => g.gadGo fuel dep (st.1, setAdd st.2 dep))
        (visited ++ [cur], deps)

/-- Total number of edge-target occurrences, used only to size the fuel. -/
def DepGraph.totalTargets {μ : Type} (g : DepGraph μ) : Nat :=
  (g.outgoingEdges.map (fun p => p.2.length)).sum

/-- Adequate fuel for the `traverse` recursion: one unit per level, and
every level beyond the first visits a fresh edge target. -/
def DepGraph.gadFuel {μ : Type} (g : DepGraph μ) : Nat :=
  g.totalTargets + 2

/-- `getAllDependencies(moduleId)`: DFS over outgoing edges with a
visited set; returns the dependency set in discovery order. -/
def DepGraph.getAllDependencies {μ : Type} (g : DepGraph μ) (id : String) :
    List String :=
  (g.gadGo g.gadFuel id ([], [])).2

/-- State of the `findCircularDependencies` recursion: the shared global
visited set, the shared recursion stack, and the accumulated cycles. -/
structure CycState : Type where
  visited : List String
  recStack : List String
  cycles : List (List String)
deriving DecidableEq

/-- `detectCycle(moduleId, path)`: reaching a node already on the
recursion stack records `path.slice(path.indexOf(moduleId))` as a cycle;
the recursion stack entry is removed when the call unwinds, the global
visited mark is permanent.  Children receive a copy of the extended path. -/
def DepGraph.detectCycle {μ : Type} (g : DepGraph μ) :
    Nat → String → List String → CycState → CycState
  | 0, _, _, st => st
  | fuel + 1, cur, path, st =>
    if cur ∈ st.recStack then
      { st with cycles := st.cycles ++ [path.drop (path.indexOf cur)] }
    else if cur ∈ st.visited then st
    else
      let st₁ : CycState :=
        { st with visited := setAdd st.visited cur
                  recStack := setAdd st.recStack cur }
      let path₁ := path ++ [cur]
      let st₂ := (g.outgoing cur).foldl
        (fun s dep => g.detectCycle fuel dep path₁ s) st₁
      { st₂ with recStack := setDelete st₂.recStack cur }

/-- Adequate fuel for one `detectCycle` start. -/
def DepGraph.cycFuel {μ : Type} (g : DepGraph μ) : Nat :=
  g.totalTargets + g.nodes.length + 2

/-- `findCircularDependencies()`: one `detectCycle` start per not yet
globally visited node, in node insertion order. -/
def DepGraph.findCircularDependencies {μ : Type} (g : DepGraph μ) :
    List (List String) :=
  (g.nodes.foldl
    (fun st p =>
      if p.1 ∈ st.visited then st else g.detectCycle g.cycFuel p.1 [] st)
    ⟨[], [], []⟩).cycles

/-- Inner recursion of `getModuleExecutionOrder`: post-order DFS, the
node is emitted after all of its dependencies. -/
def DepGraph.orderGo {μ : Type} (g : DepGraph μ) :
    Nat → String → List String × List String → List String × List String
  | 0, _, st => st
  | fuel + 1, cur, (visited, order) =>
    if cur ∈ visited then (visited, order)
    else
      let st₁ := (g.outgoing cur).foldl
        (fun st dep => g.orderGo fuel dep st) (visited ++ [cur], order)
      (st₁.1, st₁.2 ++ [cur])

/-- Adequate fuel for one `visit` start. -/
def DepGraph.orderFuel {μ : Type} (g : DepGraph μ) : Nat :=
  g.totalTargets + g.nodes.length + g.entryNodes.length + 2

/-- `getModuleExecutionOrder()`: visit the entry points first, then every
remaining node, sharing one visited set and one output list. -/
def DepGraph.getModuleExecutionOrder {μ : Type} (g : DepGraph μ) :
    List String :=
  let st₁ := g.entryNodes.foldl
    (fun st e => g.orderGo g.orderFuel e st) ([], [])
  let st₂ := g.nodes.foldl
    (fun st p => g.orderGo g.orderFuel p.1 st) st₁
  st₂.2

/-- One step of the dependency relation: `g` has an outgoing edge from
`x` to `y`. -/
def DepGraph.step {μ : Type} (g : DepGraph μ) (x y : String) : Prop :=
  y ∈ g.outgoing x

/-- `y` is reachable from `x` along one or more outgoing edges. -/
def DepGraph.reaches {μ : Type} (g : DepGraph μ) (x y : String) : Prop :=
  Relation.TransGen g.step x y

/-- All edge-target occurrences of the graph, in index order; only used
to size DFS fuel and candidate sets. -/
def DepGraph.targetsList {μ : Type} (g : DepGraph μ) : List String :=
  (g.outgoingEdges.map (fun p => p.2)).flatten

/-- Candidate set of every id the `traverse` recursion of
`getAllDependencies` can ever process: the start id and all edge
targets. -/
def DepGraph.gadCands {μ : Type} (g : DepGraph μ) (id : String) :
    Finset String :=
  (id :: g.targetsList).toFinset

/-- Invariants established by one `traverse` call of
`getAllDependencies`: the visited set and dependency set only grow, the
current id ends up visited, growth stays inside the candidate set, and
every newly visited id has all its edge targets recorded in the final
dependency set and final visited set. -/
def gadGoSpec {μ : Type} (g : DepGraph μ) (C : Finset String) (fuel : Nat)
    (cur : String) (visited deps : List String) : Prop :=
  let r := g.gadGo fuel cur (visited, deps)
  (∀ x ∈ visited, x ∈ r.1) ∧
  (∀ y ∈ deps, y ∈ r.2) ∧
  cur ∈ r.1 ∧
  (∀ x ∈ r.1, x ∈ visited ∨ x ∈ C) ∧
  (∀ x ∈ r.1, x ∉ visited → ∀ t ∈ g.outgoing x, t ∈ r.2 ∧ t ∈ r.1)

/-- The same invariants for the dependency loop inside one `traverse`
frame, which additionally processes every listed target. -/
def gadFoldSpec {μ : Type} (g : DepGraph μ) (C : Finset String) (n : Nat)
    (ts v d : List String) : Prop :=
  let r := ts.foldl (fun st dep => g.gadGo n dep (st.1, setAdd st.2 dep)) (v, d)
  (∀ x ∈ v, x ∈ r.1) ∧
  (∀ y ∈ d, y ∈ r.2) ∧
  (∀ t ∈ ts, t ∈ r.1 ∧ t ∈ r.2) ∧
  (∀ x ∈ r.1, x ∈ v ∨ x ∈ C) ∧
  (∀ x ∈ r.1, x ∉ v → ∀ u ∈ g.outgoing x, u ∈ r.2 ∧ u ∈ r.1)

/-- `y` occurs strictly earlier than `x` in the list `o`. -/
def before (o : List String) (y x : String) : Prop :=
  ∃ l₁ l₂ l₃ : List String, o = l₁ ++ y :: (l₂ ++ x :: l₃)

/-- Every emitted node has each of its dependencies either already
emitted earlier or able to reach it back (the cyclic escape). -/
def goodOrd {μ : Type} (g : DepGraph μ) (o : List String) : Prop :=
  ∀ x ∈ o, ∀ y ∈ g.outgoing x,
    before o y x ∨ Relation.ReflTransGen g.step y x

/-- Candidate set of every id the `visit` recursion of
`getModuleExecutionOrder` can ever process: entry points, node keys and
edge targets. -/
def DepGraph.ordCands {μ : Type} (g : DepGraph μ) : Finset String :=
  (g.entryNodes ++ g.nodes.map (fun p => p.1) ++ g.targetsList).toFinset

/-- Invariants established by one `visit` call of
`getModuleExecutionOrder`: the output grows by a duplicate-free block of
freshly visited candidate ids (the same ids in both components), the
current id ends up visited, and the emitted order keeps every dependency
either earlier or reaching back. -/
def ordGoSpec {μ : Type} (g : DepGraph μ) (C : Finset String) (fuel : Nat)
    (cur : String) (v o : List String) : Prop :=
  let r := g.orderGo fuel cur (v, o)
  cur ∈ r.1 ∧
  ∃ Δ : List String, r.2 = o ++ Δ ∧ Δ.Nodup ∧ (∀ x ∈ Δ, x ∉ v) ∧
    (∀ x ∈ Δ, x ∈ C) ∧ (∀ x, x ∈ r.1 ↔ x ∈ v ∨ x ∈ Δ) ∧ goodOrd g r.2

/-- The same invariants for a sequence of `visit` calls sharing state
(both the dependency loop inside a frame and the top-level seeding
loops), which additionally visits every listed id. -/
def ordFoldSpec {μ : Type} (g : DepGraph μ) (C : Finset String) (n : Nat)
    (ts : List String) (v o : List String) : Prop :=
  let r := ts.foldl (fun st dep => g.orderGo n dep st) (v, o)
  (∀ t ∈ ts, t ∈ r.1) ∧
  ∃ Δ : List String, r.2 = o ++ Δ ∧ Δ.Nodup ∧ (∀ x ∈ Δ, x ∉ v) ∧
    (∀ x ∈ Δ, x ∈ C) ∧ (∀ x, x ∈ r.1 ↔ x ∈ v ∨ x ∈ Δ) ∧ goodOrd g r.2

/-- Well-formedness invariant maintained by every `DepGraph` method: the
three maps share one duplicate-free key list, entry points are nodes,
adjacency lists are duplicate-free sets over existing nodes, and the two
adjacency indexes mirror each other. -/
def DepGraph.WF {μ : Type} (g : DepGraph μ) : Prop :=
  (g.nodes.map (fun p => p.1)).Nodup ∧
  g.outgoingEdges.map (fun p => p.1) = g.nodes.map (fun p => p.1) ∧
  g.incomingEdges.map (fun p => p.1) = g.nodes.map (fun p => p.1) ∧
  g.entryNodes.Nodup ∧
  (∀ e ∈ g.entryNodes, e ∈ g.nodes.map (fun p => p.1)) ∧
  (∀ p ∈ g.outgoingEdges, p.2.Nodup ∧
    ∀ t ∈ p.2, t ∈ g.nodes.map (fun p => p.1) ∧ p.1 ∈ g.incoming t) ∧
  (∀ p ∈ g.incomingEdges, p.2.Nodup ∧
    ∀ s ∈ p.2, s ∈ g.nodes.map (fun p => p.1) ∧ p.1 ∈ g.outgoing s)

instance {μ : Type} (g : DepGraph μ) : Decidable g.WF := by
  unfold DepGraph.WF
  infer_instance

def idA : String := "A"

def idB : String := "B"

def idC : String := "C"

/-- Concrete one-node graph holding the entry module `A`. -/
def gA : DepGraph Unit :=
  ((DepGraph.empty : DepGraph Unit).addModule idA () true).toOption.getD
    DepGraph.empty

/-- Concrete two-node graph `A(entry) → B`, built through the API. -/
def gAB : DepGraph Unit :=
  (do
    let g₁ ← (DepGraph.empty : DepGraph Unit).addModule idA () true
    let g₂ ← g₁.addModule idB () false
    g₂.addDependency idA idB).toOption.getD DepGraph.empty

/-- The graph of the spec's cycle example: modules `{A(entry), B, C}`
with edges `A→B, B→C, C→A`, built through the API. -/
def gC5 : DepGraph Unit :=
  (do
    let g₁ ← (DepGraph.empty : DepGraph Unit).addModule idA () true
    let g₂ ← g₁.addModule idB () false
    let g₃ ← g₂.addModule idC () false
    let g₄ ← g₃.addDependency idA idB
    let g₅ ← g₄.addDependency idB idC
    g₅.addDependency idC idA).toOption.getD DepGraph.empty

/-- `gAB` after `removeModule("B")`. -/
def gABremB : DepGraph Unit :=
  (gAB.removeModule idB).toOption.getD DepGraph.empty

/-! ## Bundler model (`AeroSSR`)

The bundling pipeline of `AeroSSR.js`: `resolveDependencies`,
`minifyBundle` and `generateBundle` with its in-memory bundle cache.
The filesystem (`fs.readFile`) is an explicit finite environment; the
Node `path` utilities, external collaborators per the specification,
are modelled for absolute POSIX paths. -/

/-- JS `\s` restricted to the ASCII whitespace characters. -/
def isWsChar (c : Char) : Bool :=
  c = ' ' ∨ c = '\t' ∨ c = '\n' ∨ c = '\r' ∨
  c = Char.ofNat 11 ∨ c = Char.ofNat 12

/-- The character class `['"]` of the import regex. -/
def isQuote (c : Char) : Bool := c = Char.ofNat 39 ∨ c = Char.ofNat 34

/-- JS `String.prototype.endsWith`. -/
def strEndsWith (s suffix : String) : Bool :=
  List.isSuffixOf suffix.data s.data

/-- Match, at the current position, the tail of the import pattern
after the `require`/`import` keyword: `\s*\(['"]([^'"]+)['"]\)`.
Returns the captured module path and the input remaining after the
match.  (The source applies a second regex `/['"]([^'"]+)['"]/` to the
whole matched substring; since the substring's first quote is its
opening quote, that extraction recovers exactly this group.) -/
def matchImportTail (cs : List Char) : Option (List Char × List Char) :=
  match cs.dropWhile isWsChar with
  | '(' :: cs₁ =>
    match cs₁ with
    | q :: cs₂ =>
      if isQuote q then
        match cs₂.takeWhile (fun c => ¬ isQuote c),
            cs₂.dropWhile (fun c => ¬ isQuote c) with
        | [], _ => none
        | path, q₂ :: ')' :: cs₃ =>
          if isQuote q₂ then some (path, cs₃) else none
        | _, _ => none
      else none
    | [] => none
  | _ => none

/-- Left-to-right pass of the source's global regex
`/(?:require|import)\s*\(['"]([^'"]+)['"]\)/g`, collecting each
non-overlapping match's quoted path.  The fuel exceeds the input length
and every step consumes at least one character, so it never runs out. -/
def scanImportsGo : Nat → List Char → List String
  | 0, _ => []
  | _ + 1, [] => []
  | fuel + 1, c :: cs =>
    if (c :: cs).take 7 = [ 'r', 'e', 'q', 'u', 'i', 'r', 'e'] then
      match matchImportTail ((c :: cs).drop 7) with
      | some (path, rest) => path.asString :: scanImportsGo fuel rest
      | none => scanImportsGo fuel cs
    else if (c :: cs).take 6 = [ 'i', 'm', 'p', 'o', 'r', 't'] then
      match matchImportTail ((c :: cs).drop 6) with
      | some (path, rest) => path.asString :: scanImportsGo fuel rest
      | none => scanImportsGo fuel cs
    else scanImportsGo fuel cs

/-- `content.match(...)` of the import regex; a `null` result behaves
as no matches. -/
def importMatches (content : String) : List String :=
  scanImportsGo (content.data.length + 1) content.data

/-- JS `String.prototype.startsWith`. -/
def strStartsWith (s pre : String) : Bool :=
  List.isPrefixOf pre.data s.data

/-- Character-level splitting of a path on `/` (the behaviour of
`String.splitOn "/"`). -/
def splitSegsGo (cur : List Char) : List Char → List String
  | [] => [cur.reverse.asString]
  | c :: cs =>
    if c = '/' then cur.reverse.asString :: splitSegsGo [] cs
    else splitSegsGo (c :: cur) cs

/-- Split a path on `/`. -/
def splitSegs (p : String) : List String := splitSegsGo [] p.data

/-- Resolve `.`, `..` and empty segments (POSIX normalisation as done
by Node's `path` module, an external collaborator). -/
def normalizeSegs (segs : List String) : List String :=
  segs.foldl
    (fun acc seg =>
      if seg = "" ∨ seg = "." then acc
      else if seg = ".." then acc.dropLast
      else acc ++ [seg])
    []

/-- Model of `path.resolve(baseDir, rel)` for the shapes produced by the
resolver (directories treated as absolute). -/
def pathResolve (baseDir rel : String) : String :=
  if strStartsWith rel ("/") then
    "/" ++ String.intercalate ("/") (normalizeSegs (splitSegs rel))
  else
    "/" ++ String.intercalate ("/")
      (normalizeSegs (splitSegs baseDir ++ splitSegs rel))

/-- Model of `path.dirname`. -/
def dirname (p : String) : String :=
  match (splitSegs p).dropLast with
  | [] => "."
  | [""] => "/"
  | segs => String.intercalate ("/") segs

/-- Model of `path.join`. -/
def pathJoin (a b : String) : String :=
  if strStartsWith a ("/") then
    "/" ++ String.intercalate ("/") (normalizeSegs (splitSegs a ++ splitSegs b))
  else
    String.intercalate ("/") (normalizeSegs (splitSegs a ++ splitSegs b))

/-- Drop the common leading segments of two paths. -/
def dropCommon : List String → List String → List String × List String
  | a :: as, b :: bs =>
    if a = b then dropCommon as bs else (a :: as, b :: bs)
  | as, bs => (as, bs)

/-- Model of `path.relative(from, to)`: strip the common prefix, then
one `..` per remaining segment of `from`. -/
def pathRelative (fromP toP : String) : String :=
  let pq := dropCommon (normalizeSegs (splitSegs fromP))
    (normalizeSegs (splitSegs toP))
  String.intercalate ("/") (pq.1.map (fun _ => "..") ++ pq.2)

/-- The suffix after the first `*/`, if any (the lazy `[\s\S]*?` of the
block-comment regex stops at the first closer). -/
def findBlockClose : List Char → Option (List Char)
  | [] => none
  | '*' :: '/' :: rest => some rest
  | _ :: rest => findBlockClose rest

/-- One pass of `/\/\*[\s\S]*?\*\/|([^\\:]|^)\/\/.*$/gm` with empty
replacement: block comments, and line comments preceded either by a
character that is not a backslash or colon (deleted along with the
comment, since it sits inside the match) or by a line start.  `atStart`
tracks whether the position is preceded by a newline of the input,
which is what the `m`-flag `^` anchor consults; `.*$` stops before the
newline, which is kept. -/
def stripCommentsGo : Nat → Bool → List Char → List Char
  | 0, _, _ => []
  | _ + 1, _, [] => []
  | fuel + 1, atStart, c :: cs =>
    if c = '/' ∧ cs.take 1 = [ '*'] ∧ (findBlockClose (cs.drop 1)).isSome then
      stripCommentsGo fuel false ((findBlockClose (cs.drop 1)).getD [])
    else if c ≠ '\\' ∧ c ≠ ':' ∧ cs.take 2 = [ '/', '/'] then
      stripCommentsGo fuel false ((cs.drop 2).dropWhile (fun d => d ≠ '\n'))
    else if atStart ∧ c = '/' ∧ cs.take 1 = [ '/'] then
      stripCommentsGo fuel false ((cs.drop 1).dropWhile (fun d => d ≠ '\n'))
    else c :: stripCommentsGo fuel (c = '\n') cs

/-- `.replace(/\s+/g, ' ')`: each whitespace run becomes one space. -/
def collapseWsGo : Bool → List Char → List Char
  | _, [] => []
  | prevWs, c :: cs =>
    if isWsChar c then
      if prevWs then collapseWsGo true cs
      else ' ' :: collapseWsGo true cs
    else c :: collapseWsGo false cs

/-- Split a whitespace run at its last newline: the part before it and
the suffix from that newline on; `none` when the run has no newline. -/
def splitAtLastNewline (run : List Char) : Option (List Char × List Char) :=
  match run.reverse.dropWhile (fun c => c ≠ '\n') with
  | [] => none
  | _ :: revBefore =>
    some (revBefore.reverse,
      '\n' :: (run.reverse.takeWhile (fun c => c ≠ '\n')).reverse)

/-- One pass of `/^\s+|\s+$/gm` with empty replacement on the input's
own line geometry: a whitespace run at a line start is deleted greedily;
otherwise a run is deleted when followed by an end of line, backtracking
to the run's last inner newline when it is not; on failure the scan
advances one character. -/
def trimLinesGo : Nat → Bool → List Char → List Char
  | 0, _, _ => []
  | _ + 1, _, [] => []
  | fuel + 1, atStart, c :: cs =>
    if isWsChar c then
      if atStart then
        trimLinesGo fuel
          (((c :: cs).takeWhile isWsChar).getLast? = some '\n')
          ((c :: cs).dropWhile isWsChar)
      else if (c :: cs).dropWhile isWsChar = [] then []
      else
        match splitAtLastNewline ((c :: cs).takeWhile isWsChar) with
        | some (bef, aft) =>
          if bef = [] then c :: trimLinesGo fuel (c = '\n') cs
          else
            trimLinesGo fuel (bef.getLast? = some '\n')
              (aft ++ (c :: cs).dropWhile isWsChar)
        | none => c :: trimLinesGo fuel (c = '\n') cs
    else c :: trimLinesGo fuel (c = '\n') cs

/-- `minifyBundle(code)`: strip comments, collapse whitespace runs to a
single space, trim line starts and ends. -/
def minifyBundle (code : String) : String :=
  (trimLinesGo ((collapseWsGo false
      (stripCommentsGo (code.data.length + 1) true code.data)).length + 1)
    true
    (collapseWsGo false
      (stripCommentsGo (code.data.length + 1) true code.data))).asString

/-- The filesystem visible to the bundler: a finite map from path to
text, on whose keys `fs.readFile` succeeds. -/
structure BundleEnv : Type where
  fsys : List (String × String)
deriving DecidableEq

/-- `fs.readFile(path, 'utf-8')`: content, or a rejected promise. -/
def readFile (env : BundleEnv) (p : String) : Except String String :=
  match lookupA env.fsys p with
  | some c => .ok c
  | none => .error ("ENOENT: no such file " ++ p)

/-- The loop over one file's import matches inside
`resolveDependencies`: resolve each captured path against the current
file's directory and recurse (through `rec`) when it ends in `.js`.
The second component counts `readFile` calls. -/
def goImports
    (rec : String → List String → Except String (List String) × Nat)
    (dir : String) : List String → List String →
    Except String (List String) × Nat
  | [], seen => (.ok seen, 0)
  | m :: rest, seen =>
    if strEndsWith (pathResolve dir m) (".js") then
      match rec (pathResolve dir m) seen with
      | (.error e, n) => (.error e, n)
      | (.ok seen₁, n) =>
        match goImports rec dir rest seen₁ with
        | (r, n₁) => (r, n + n₁)
    else goImports rec dir rest seen

/-- `resolveDependencies(filePath, deps)`: return at once when the file
is already in the seen set (the guard that terminates cyclic imports);
otherwise record it, read it, scan the text for import expressions and
recurse on each resolved `.js` path.  A read failure aborts the whole
resolution (the promise rejection propagates and the set is discarded).
The second component counts `readFile` calls. -/
def resolveDeps (env : BundleEnv) : Nat → String → List String →
    Except String (List String) × Nat
  | 0, _, seen => (.ok seen, 0)
  | fuel + 1, filePath, seen =>
    if filePath ∈ seen then (.ok seen, 0)
    else
      match readFile env filePath with
      | .error e => (.error e, 1)
      | .ok content =>
        match goImports (fun fp s => resolveDeps env fuel fp s)
            (dirname filePath) (importMatches content)
            (seen ++ [filePath]) with
        | (r, n) => (r, n + 1)

/-- The keys of the modelled filesystem. -/
def fsKeys (env : BundleEnv) : Finset String :=
  (env.fsys.map (fun p => p.1)).toFinset

/-- Sufficient fuel relative to a seen set: every nesting level that
makes progress adds one successfully read file — a fresh key. -/
def resolveBound (env : BundleEnv) (seen : List String) : Nat :=
  ((fsKeys env).filter (fun z => z ∉ seen)).card + 2

/-- Adequate fuel for a whole resolution from an empty seen set. -/
def resolveFuel (env : BundleEnv) : Nat := env.fsys.length + 2

/-- Error wrapper of `generateBundle`'s `catch` block. -/
inductive BundleError : Type where
  | BundleGenerationError : String → BundleError
deriving DecidableEq

/-- The concatenation loop of `generateBundle`: each resolved file is
read and appended after a separator comment naming its path relative to
the project root.  Counts `readFile` calls. -/
def bundleConcat (env : BundleEnv) (projectPath : String) :
    List String → String → Except String String × Nat
  | [], acc => (.ok acc, 0)
  | dep :: rest, acc =>
    match readFile env dep with
    | .error e => (.error e, 1)
    | .ok content =>
      match bundleConcat env projectPath rest
          (acc ++ "\n// File: " ++ pathRelative projectPath dep ++ "\n" ++
            content ++ "\n") with
      | (r, n) => (r, n + 1)

/-- `generateBundle(projectPath, entryPoint, force)` over an explicit
environment and cache state.  The key is
`projectPath + ":" + entryPoint`; without `force`, a present key returns
the cached text with zero reads; otherwise the pipeline
resolve → concatenate → minify runs, the result is stored under the key
and returned.  Any failure is wrapped in `BundleGenerationError` and the
cache is returned untouched.  Result: (text or error, cache state after
the call, number of `readFile` calls). -/
def generateBundle (env : BundleEnv) (cache : List (String × String))
    (projectPath entryPoint : String) (force : Bool) :
    Except BundleError String × List (String × String) × Nat :=
  if force = false ∧ (lookupA cache (projectPath ++ ":" ++ entryPoint)).isSome
  then
    (.ok ((lookupA cache (projectPath ++ ":" ++ entryPoint)).getD ""),
      cache, 0)
  else
    match resolveDeps env (resolveFuel env)
        (pathJoin projectPath entryPoint) [] with
    | (.error e, n) =>
      (.error (.BundleGenerationError ("Bundle generation failed: " ++ e)),
        cache, n)
    | (.ok deps, n) =>
      match bundleConcat env projectPath deps "" with
      | (.error e, n₁) =>
        (.error (.BundleGenerationError ("Bundle generation failed: " ++ e)),
          cache, n + n₁)
      | (.ok bundle, n₁) =>
        (.ok (minifyBundle bundle),
          mapSet cache (projectPath ++ ":" ++ entryPoint)
            (minifyBundle bundle),
          n + n₁)

/-- The spec's cyclic-import example: `/p/main.js` and `/p/a.js`
require each other. -/
def cycEnv : BundleEnv :=
  ⟨[("/p/main.js", "require('./a.js')"), ("/p/a.js", "require('./main.js')")]⟩

/-- An empty filesystem: every read fails. -/
def emptyEnv : BundleEnv := ⟨[]⟩

/-- The bundle text `generateBundle` produces for `cycEnv` with project
root `/p` and entry `main.js`. -/
def bundleTextC2 : String := "require('./a.js') require('./main.js')"

/-! ## Association-list and set lemmas -/

theorem lookupA_eq_none_iff {α : Type} (m : List (String × α)) (k : String) :
    lookupA m k = none ↔ k ∉ m.map (fun p => p.1) := by
  induction m with
  | nil => simp [lookupA]
  | cons p rest ih =>
    obtain ⟨k₀, v⟩ := p
    by_cases h : k₀ = k
    · subst h
      simp [lookupA]
    · simp [lookupA, h, ih, Ne.symm h]

theorem lookupA_isSome_iff {α : Type} (m : List (String × α)) (k : String) :
    (lookupA m k).isSome = true ↔ k ∈ m.map (fun p => p.1) := by
  rw [← Decidable.not_iff_not, ← lookupA_eq_none_iff]
  cases lookupA m k <;> simp

theorem lookupA_some_mem {α : Type} {m : List (String × α)} {k : String}
    {v : α} (h : lookupA m k = some v) : (k, v) ∈ m := by
  induction m with
  | nil => simp [lookupA] at h
  | cons p rest ih =>
    obtain ⟨k₀, v₀⟩ := p
    by_cases hk : k₀ = k
    · subst hk
      simp [lookupA] at h
      simp [h]
    · simp [lookupA, hk] at h
      simp [ih h]

theorem lookupA_append_of_none {α : Type} {m₁ : List (String × α)}
    (m₂ : List (String × α)) {k : String} (h : lookupA m₁ k = none) :
    lookupA (m₁ ++ m₂) k = lookupA m₂ k := by
  induction m₁ with
  | nil => simp
  | cons p rest ih =>
    obtain ⟨k₀, v₀⟩ := p
    by_cases hk : k₀ = k
    · simp [lookupA, hk] at h
    · simp [lookupA, hk] at h ⊢
      exact ih h

theorem lookupA_append_of_some {α : Type} {m₁ : List (String × α)}
    (m₂ : List (String × α)) {k : String} {v : α} (h : lookupA m₁ k = some v) :
    lookupA (m₁ ++ m₂) k = some v := by
  induction m₁ with
  | nil => simp [lookupA] at h
  | cons p rest ih =>
    obtain ⟨k₀, v₀⟩ := p
    by_cases hk : k₀ = k
    · simp [lookupA, hk] at h ⊢
      exact h
    · simp [lookupA, hk] at h ⊢
      exact ih h

theorem lookupA_eraseA_self {α : Type} (m : List (String × α)) (k : String) :
    lookupA (eraseA m k) k = none := by
  induction m with
  | nil => simp [eraseA, lookupA]
  | cons p rest ih =>
    obtain ⟨k₀, v₀⟩ := p
    by_cases hk : k₀ = k
    · simpa [eraseA, hk] using ih
    · simpa [eraseA, lookupA, hk] using ih

theorem lookupA_eraseA_ne {α : Type} (m : List (String × α)) {k x : String}
    (h : x ≠ k) : lookupA (eraseA m k) x = lookupA m x := by
  induction m with
  | nil => simp [eraseA]
  | cons p rest ih =>
    obtain ⟨k₀, v₀⟩ := p
    by_cases hk : k₀ = k
    · subst hk
      simp [eraseA, lookupA, Ne.symm h, ih]
    · by_cases hx : k₀ = x
      · subst hx
        simp [eraseA, lookupA, hk]
      · simp [eraseA, lookupA, hk, hx, ih]

theorem lookupA_updateA {α : Type} (m : List (String × α)) (k x : String)
    (f : α → α) :
    lookupA (updateA m k f) x =
      if x = k then (lookupA m x).map f else lookupA m x := by
  induction m with
  | nil => simp [updateA, lookupA]
  | cons p rest ih =>
    obtain ⟨k₀, v₀⟩ := p
    by_cases hk : k₀ = k
    · subst hk
      by_cases hx : k₀ = x
      · subst hx
        simp [updateA, lookupA, ih]
      · simp [updateA, lookupA, hx, Ne.symm hx, ih]
    · by_cases hx : k₀ = x
      · subst hx
        simp [updateA, lookupA, hk, ih, Ne.symm hk]
      · simp [updateA, lookupA, hk, hx, ih]

theorem updateA_keys {α : Type} (m : List (String × α)) (k : String)
    (f : α → α) : (updateA m k f).map (fun p => p.1) = m.map (fun p => p.1) := by
  induction m with
  | nil => simp [updateA]
  | cons p rest ih =>
    obtain ⟨k₀, v₀⟩ := p
    by_cases hk : k₀ = k <;> simp [updateA, hk, ih]

theorem mem_setAdd {s : List String} {x y : String} :
    y ∈ setAdd s x ↔ y ∈ s ∨ y = x := by
  unfold setAdd
  by_cases h : x ∈ s
  · simp [h]
    intro hy
    subst hy
    exact h
  · simp [h]

theorem setAdd_nodup {s : List String} (h : s.Nodup) (x : String) :
    (setAdd s x).Nodup := by
  unfold setAdd
  by_cases hx : x ∈ s
  · simpa [hx]
  · simp [hx, List.nodup_append, h]

theorem mem_setDelete {s : List String} {x y : String} :
    y ∈ setDelete s x ↔ y ∈ s ∧ y ≠ x := by
  simp [setDelete]

theorem not_mem_setDelete_self (s : List String) (x : String) :
    x ∉ setDelete s x := by
  simp [setDelete]

theorem filter_not_mem_card_le (C : Finset String) {v w : List String}
    (h : ∀ x ∈ v, x ∈ w) :
    (C.filter (fun z => z ∉ w)).card ≤ (C.filter (fun z => z ∉ v)).card := by
  apply Finset.card_le_card
  intro z hz
  simp only [Finset.mem_filter] at hz ⊢
  exact ⟨hz.1, fun hzv => hz.2 (h z hzv)⟩

theorem filter_not_mem_card_lt (C : Finset String) {v : List String}
    {c : String} (hc : c ∈ C) (hcv : c ∉ v) :
    (C.filter (fun z => z ∉ v ++ [c])).card <
      (C.filter (fun z => z ∉ v)).card := by
  apply Finset.card_lt_card
  rw [Finset.ssubset_iff_of_subset]
  · refine ⟨c, ?_, ?_⟩
    · simp only [Finset.mem_filter]
      exact ⟨hc, hcv⟩
    · simp
  · intro z hz
    simp only [Finset.mem_filter, List.mem_append] at hz ⊢
    exact ⟨hz.1, fun hzv => hz.2 (Or.inl hzv)⟩

theorem lookupA_foldl_updateA_not_mem {α : Type} (f : α → α) (l : List String)
    (m : List (String × α)) (x : String) (hx : x ∉ l) :
    lookupA (l.foldl (fun m k => updateA m k f) m) x = lookupA m x := by
  induction l generalizing m with
  | nil => rfl
  | cons k ks ih =>
    simp only [List.mem_cons, not_or] at hx
    rw [List.foldl_cons, ih _ hx.2, lookupA_updateA, if_neg hx.1]

theorem lookupA_foldl_updateA_mem {α : Type} (f : α → α) (l : List String)
    (m : List (String × α)) (x : String) (hx : x ∈ l) :
    ∃ y, lookupA (l.foldl (fun m k => updateA m k f) m) x = Option.map f y := by
  induction l generalizing m with
  | nil => cases hx
  | cons k ks ih =>
    rw [List.foldl_cons]
    by_cases hks : x ∈ ks
    · exact ih _ hks
    · have hxk : x = k := by
        rcases List.mem_cons.mp hx with h | h
        · exact h
        · exact absurd h hks
      rw [lookupA_foldl_updateA_not_mem f ks _ x hks, lookupA_updateA,
        if_pos hxk]
      exact ⟨_, rfl⟩

theorem foldl_updateA_keys {α : Type} (f : α → α) (l : List String)
    (m : List (String × α)) :
    (l.foldl (fun m k => updateA m k f) m).map (fun p => p.1) =
      m.map (fun p => p.1) := by
  induction l generalizing m with
  | nil => rfl
  | cons k ks ih => rw [List.foldl_cons, ih, updateA_keys]

/-! ## Graph-level helper lemmas -/

theorem hasNode_iff {μ : Type} (g : DepGraph μ) (id : String) :
    g.hasNode id = true ↔ id ∈ g.nodes.map (fun p => p.1) := by
  rw [DepGraph.hasNode, lookupA_isSome_iff]

theorem outgoing_of_not_node {μ : Type} {g : DepGraph μ} {id : String}
    (hwf : g.WF) (h : g.hasNode id = false) : g.outgoing id = [] := by
  obtain ⟨-, hko, -, -, -, -, -⟩ := hwf
  have hid : id ∉ g.nodes.map (fun p => p.1) := by
    intro hc
    rw [← hasNode_iff] at hc
    rw [hc] at h
    cases h
  have : lookupA g.outgoingEdges id = none := by
    rw [lookupA_eq_none_iff, hko]
    exact hid
  rw [DepGraph.outgoing, this]
  rfl

/-! ## Claim theorems: graph operations -/

/-- C7: `addDependency(fromId, toId)` with either endpoint absent fails
with `UnknownModule` naming the first absent endpoint checked, and the
graph is unchanged afterward: both endpoints are validated before any
mutation, so no edge is added to either adjacency index. -/
theorem addDependency_unknown {μ : Type} (g : DepGraph μ)
    (fromId toId : String)
    (h : g.hasNode fromId = false ∨ g.hasNode toId = false) :
    g.addDependency fromId toId =
      .error (.UnknownModule (cond (g.hasNode fromId) toId fromId)) ∧
    g.addDependencyState fromId toId = g := by
  by_cases hf : g.hasNode fromId = true
  · have ht : g.hasNode toId = false := by
      rcases h with h | h
      · rw [h] at hf
        cases hf
      · exact h
    refine ⟨?_, ?_⟩
    · simp [DepGraph.addDependency, hf, ht]
    · simp [DepGraph.addDependencyState, DepGraph.addDependency, hf, ht]
  · have hf₀ : g.hasNode fromId = false := by
      simpa using hf
    refine ⟨?_, ?_⟩
    · simp [DepGraph.addDependency, hf₀]
    · simp [DepGraph.addDependencyState, DepGraph.addDependency, hf₀]

/-- C7 witness: on the concrete graph `gAB`, adding an edge from the
absent module `C` fails with `UnknownModule C` and leaves the graph
unchanged. -/
theorem addDependency_unknown_witness :
    (gAB.hasNode idC = false ∨ gAB.hasNode idA = false) ∧
    (gAB.addDependency idC idA =
      .error (.UnknownModule (cond (gAB.hasNode idC) idA idC)) ∧
     gAB.addDependencyState idC idA = gAB) :=
  ⟨Or.inl (by decide), addDependency_unknown gAB idC idA (Or.inl (by decide))⟩

/-- C8: `addModule` with an id already in the graph fails with
`DuplicateModule` and leaves the graph unchanged; moreover once an
`addModule` call for an id has succeeded, any later `addModule` call for
the same id (without an intervening removal) fails. -/
theorem addModule_duplicate {μ : Type} (g : DepGraph μ) (id : String)
    (m : μ) (e : Bool) :
    (g.hasNode id = true →
      g.addModule id m e = .error (.DuplicateModule id) ∧
      g.addModuleState id m e = g) ∧
    (∀ (g₁ : DepGraph μ) (m₁ : μ) (e₁ : Bool),
      g.addModule id m e = .ok g₁ →
      g₁.addModule id m₁ e₁ = .error (.DuplicateModule id)) := by
  refine ⟨?_, ?_⟩
  · intro h
    refine ⟨?_, ?_⟩
    · simp [DepGraph.addModule, h]
    · simp [DepGraph.addModuleState, DepGraph.addModule, h]
  · intro g₁ m₁ e₁ hok
    by_cases h : g.hasNode id = true
    · simp [DepGraph.addModule, h] at hok
    · have h₀ : g.hasNode id = false := by
        simpa using h
      have hnone : lookupA g.nodes id = none := by
        rw [DepGraph.hasNode] at h₀
        cases hl : lookupA g.nodes id
        · rfl
        · rw [hl] at h₀
          cases h₀
      rw [DepGraph.addModule, if_neg (by simp [h₀])] at hok
      have hnodes : g₁.nodes = g.nodes ++ [(id, m)] := by
        cases hok
        rfl
      have hnode : g₁.hasNode id = true := by
        rw [DepGraph.hasNode, hnodes, lookupA_append_of_none _ hnone]
        simp [lookupA]
      simp [DepGraph.addModule, hnode]

/-- C8 witness: re-adding module `A` to `gAB` fails with
`DuplicateModule A` and leaves the graph unchanged; and after
successfully adding `A` to the empty graph, adding it again fails. -/
theorem addModule_duplicate_witness :
    (gAB.addModule idA () false = .error (.DuplicateModule idA) ∧
     gAB.addModuleState idA () false = gAB) ∧
    gA.addModule idA () false = .error (.DuplicateModule idA) :=
  ⟨(addModule_duplicate gAB idA () false).1 (by decide),
   (addModule_duplicate (DepGraph.empty : DepGraph Unit) idA () true).2
     gA () false (by decide)⟩

/-- C5: on the graph `{A(entry), B, C}` with edges `A→B, B→C, C→A`,
`findCircularDependencies()` returns exactly one cycle, the rotation
`[A, B, C]`, and `getAllDependencies(A)` returns the set `{B, C, A}`
(in discovery order, `A` included because the cycle reaches it again). -/
theorem cycle_example_exact :
    gC5.findCircularDependencies = [[idA, idB, idC]] ∧
    gC5.getAllDependencies idA = [idB, idC, idA] := by decide

/-- C10: `getAllDependencies(id)` on an id that is not a node of a
well-formed graph does not throw `UnknownModule` (the function is total
on the embedding, mirroring the source's `if (outgoing)` guard): it
returns the empty set; the graph itself is never mutated by this
read-only query. -/
theorem getAllDependencies_unknown {μ : Type} (g : DepGraph μ) (id : String)
    (hwf : g.WF) (h : g.hasNode id = false) :
    g.getAllDependencies id = [] := by
  have hout : g.outgoing id = [] := outgoing_of_not_node hwf h
  show (g.gadGo g.gadFuel id ([], [])).2 = []
  rw [DepGraph.gadFuel]
  simp [DepGraph.gadGo, hout]

/-! ## Bundler lemmas and claim theorems (C2, C3, C9) -/

theorem lookupA_mapSet_self {α : Type} (m : List (String × α)) (k : String)
    (v : α) : lookupA (mapSet m k v) k = some v := by
  rw [mapSet]
  by_cases h : (lookupA m k).isSome
  · rw [if_pos h, lookupA_updateA, if_pos rfl]
    cases hl : lookupA m k with
    | none =>
      rw [hl] at h
      cases h
    | some w => rfl
  · rw [if_neg h]
    have hnone : lookupA m k = none := by
      cases hl : lookupA m k with
      | none => rfl
      | some w =>
        rw [hl] at h
        exact absurd rfl h
    rw [lookupA_append_of_none _ hnone]
    simp [lookupA]

theorem readFile_ok_mem (env : BundleEnv) {fp content : String}
    (h : readFile env fp = .ok content) : fp ∈ fsKeys env := by
  rw [readFile] at h
  cases hl : lookupA env.fsys fp with
  | none =>
    rw [hl] at h
    cases h
  | some c =>
    rw [fsKeys, List.mem_toFinset, ← lookupA_isSome_iff, hl]
    rfl

theorem resolveBound_mono (env : BundleEnv) {s t : List String}
    (h : ∀ x ∈ s, x ∈ t) : resolveBound env t ≤ resolveBound env s := by
  rw [resolveBound, resolveBound]
  exact Nat.add_le_add_right (filter_not_mem_card_le _ h) 2

theorem resolveBound_insert (env : BundleEnv) {fp : String}
    {seen : List String} (hkey : fp ∈ fsKeys env) (hmem : fp ∉ seen) :
    resolveBound env (seen ++ [fp]) < resolveBound env seen := by
  rw [resolveBound, resolveBound]
  exact Nat.add_lt_add_right (filter_not_mem_card_lt _ hkey hmem) 2

theorem goImports_ok_extends
    (rec : String → List String → Except String (List String) × Nat)
    (hrec : ∀ fp seen out n, rec fp seen = (.ok out, n) →
      ∃ Δ, out = seen ++ Δ)
    (dir : String) :
    ∀ (ms seen out : List String) (n : Nat),
      goImports rec dir ms seen = (.ok out, n) → ∃ Δ, out = seen ++ Δ := by
  intro ms
  induction ms with
  | nil =>
    intro seen out n h
    simp only [goImports, Prod.mk.injEq, Except.ok.injEq] at h
    exact ⟨[], by rw [← h.1, List.append_nil]⟩
  | cons m rest ih =>
    intro seen out n h
    simp only [goImports] at h
    by_cases hjs : strEndsWith (pathResolve dir m) (".js") = true
    · rw [if_pos hjs] at h
      split at h
      · simp at h
      · rename_i seen₁ n₀ heq
        rcases hg : goImports rec dir rest seen₁ with ⟨r₁, n₁⟩
        rw [hg] at h
        cases r₁ with
        | error e => simp at h
        | ok out₁ =>
          simp only [Prod.mk.injEq, Except.ok.injEq] at h
          obtain ⟨Δ₁, hΔ₁⟩ := hrec _ _ _ _ heq
          obtain ⟨Δ₂, hΔ₂⟩ := ih seen₁ out₁ n₁ hg
          refine ⟨Δ₁ ++ Δ₂, ?_⟩
          rw [← h.1, hΔ₂, hΔ₁, List.append_assoc]
    · rw [if_neg hjs] at h
      exact ih seen out n h

theorem resolveDeps_ok_extends (env : BundleEnv) :
    ∀ (fuel : Nat) (fp : String) (seen out : List String) (n : Nat),
      resolveDeps env fuel fp seen = (.ok out, n) → ∃ Δ, out = seen ++ Δ := by
  intro fuel
  induction fuel with
  | zero =>
    intro fp seen out n h
    simp only [resolveDeps, Prod.mk.injEq, Except.ok.injEq] at h
    exact ⟨[], by rw [← h.1, List.append_nil]⟩
  | succ m ihf =>
    intro fp seen out n h
    simp only [resolveDeps] at h
    by_cases hmem : fp ∈ seen
    · rw [if_pos hmem] at h
      simp only [Prod.mk.injEq, Except.ok.injEq] at h
      exact ⟨[], by rw [← h.1, List.append_nil]⟩
    · rw [if_neg hmem] at h
      split at h
      · simp at h
      · rename_i content heq
        rcases hgi : goImports (fun fp s => resolveDeps env m fp s)
            (dirname fp) (importMatches content) (seen ++ [fp]) with ⟨r₀, n₀⟩
        rw [hgi] at h
        cases r₀ with
        | error e => simp at h
        | ok out₀ =>
          simp only [Prod.mk.injEq, Except.ok.injEq] at h
          obtain ⟨Δ, hΔ⟩ := goImports_ok_extends
            (fun fp s => resolveDeps env m fp s)
            (fun fp₁ s₁ o₁ n₁ hh => ihf fp₁ s₁ o₁ n₁ hh)
            (dirname fp) (importMatches content) (seen ++ [fp]) out₀ n₀ hgi
          refine ⟨[fp] ++ Δ, ?_⟩
          rw [← h.1, hΔ, List.append_assoc]

theorem goImports_congr (env : BundleEnv) (a b : Nat)
    (hab : ∀ (fp : String) (seen : List String),
      resolveBound env seen ≤ a → resolveBound env seen ≤ b →
      resolveDeps env a fp seen = resolveDeps env b fp seen)
    (dir : String) :
    ∀ (ms seen : List String),
      resolveBound env seen ≤ a → resolveBound env seen ≤ b →
      goImports (fun fp s => resolveDeps env a fp s) dir ms seen =
        goImports (fun fp s => resolveDeps env b fp s) dir ms seen := by
  intro ms
  induction ms with
  | nil =>
    intro seen _ _
    rfl
  | cons m rest ih =>
    intro seen hsa hsb
    simp only [goImports]
    by_cases hjs : strEndsWith (pathResolve dir m) (".js") = true
    · rw [if_pos hjs, if_pos hjs]
      rw [← hab (pathResolve dir m) seen hsa hsb]
      rcases hres : resolveDeps env a (pathResolve dir m) seen with ⟨r₀, n₀⟩
      cases r₀ with
      | error e => rfl
      | ok seen₁ =>
        obtain ⟨Δ, rfl⟩ := resolveDeps_ok_extends env a _ _ _ _ hres
        have hmono : resolveBound env (seen ++ Δ) ≤ resolveBound env seen :=
          resolveBound_mono env (fun x hx => List.mem_append.mpr (Or.inl hx))
        show ((goImports (fun fp s => resolveDeps env a fp s) dir rest
            (seen ++ Δ)).1,
          n₀ + (goImports (fun fp s => resolveDeps env a fp s) dir rest
            (seen ++ Δ)).2) =
          ((goImports (fun fp s => resolveDeps env b fp s) dir rest
            (seen ++ Δ)).1,
          n₀ + (goImports (fun fp s => resolveDeps env b fp s) dir rest
            (seen ++ Δ)).2)
        rw [ih (seen ++ Δ) (le_trans hmono hsa) (le_trans hmono hsb)]
    · rw [if_neg hjs, if_neg hjs]
      exact ih seen hsa hsb

theorem resolveDeps_stable (env : BundleEnv) :
    ∀ (a b : Nat) (fp : String) (seen : List String),
      resolveBound env seen ≤ a → resolveBound env seen ≤ b →
      resolveDeps env a fp seen = resolveDeps env b fp seen := by
  intro a
  induction a with
  | zero =>
    intro b fp seen ha _
    rw [resolveBound] at ha
    omega
  | succ a iha =>
    intro b fp seen ha hb
    cases b with
    | zero =>
      rw [resolveBound] at hb
      omega
    | succ b =>
      simp only [resolveDeps]
      by_cases hmem : fp ∈ seen
      · rw [if_pos hmem, if_pos hmem]
      · rw [if_neg hmem, if_neg hmem]
        cases hrf : readFile env fp with
        | error e => rfl
        | ok content =>
          have hkey : fp ∈ fsKeys env := readFile_ok_mem env hrf
          have hlt : resolveBound env (seen ++ [fp]) < resolveBound env seen :=
            resolveBound_insert env hkey hmem
          have hba : resolveBound env (seen ++ [fp]) ≤ a := by omega
          have hbb : resolveBound env (seen ++ [fp]) ≤ b := by omega
          show ((goImports (fun fp s => resolveDeps env a fp s) (dirname fp)
              (importMatches content) (seen ++ [fp])).1,
            (goImports (fun fp s => resolveDeps env a fp s) (dirname fp)
              (importMatches content) (seen ++ [fp])).2 + 1) =
            ((goImports (fun fp s => resolveDeps env b fp s) (dirname fp)
              (importMatches content) (seen ++ [fp])).1,
            (goImports (fun fp s => resolveDeps env b fp s) (dirname fp)
              (importMatches content) (seen ++ [fp])).2 + 1)
          rw [goImports_congr env a b
            (fun fp₁ s₁ h₁ h₂ => iha b fp₁ s₁ h₁ h₂)
            (dirname fp) (importMatches content) (seen ++ [fp]) hba hbb]

/-- C9: `resolveDependencies` terminates on every input, cyclic imports
included, because a file already in the seen set returns immediately:
formally the fuel-indexed model stabilises — any two fuel values at least
`resolveBound` give identical results — and on the concrete cyclic
filesystem where `/p/main.js` and `/p/a.js` import each other, resolving
the entry returns exactly the finite set `{/p/main.js, /p/a.js}`. -/
theorem resolveDeps_terminates :
    (∀ (env : BundleEnv) (f₁ f₂ : Nat) (fp : String) (seen : List String),
      resolveBound env seen ≤ f₁ → resolveBound env seen ≤ f₂ →
      resolveDeps env f₁ fp seen = resolveDeps env f₂ fp seen) ∧
    resolveDeps cycEnv (resolveFuel cycEnv) ("/p/main.js") [] =
      (.ok ["/p/main.js", "/p/a.js"], 2) :=
  ⟨fun env f₁ f₂ fp seen h₁ h₂ => resolveDeps_stable env f₁ f₂ fp seen h₁ h₂,
   rfl⟩

/-- C9 witness: on the cyclic two-file filesystem, fuel 4 (the computed
bound) and fuel 7 give the same resolution result. -/
theorem resolveDeps_terminates_witness :
    resolveBound cycEnv [] ≤ 4 ∧ resolveBound cycEnv [] ≤ 7 ∧
    resolveDeps cycEnv 4 ("/p/main.js") [] =
      resolveDeps cycEnv 7 ("/p/main.js") [] :=
  ⟨by decide, by decide,
   resolveDeps_terminates.1 cycEnv 4 7 ("/p/main.js") [] (by decide)
     (by decide)⟩

/-- C2: when the key `(projectRoot, entryPoint)` is present in the
bundle cache and `force` is off, `generateBundle` returns the cached
text unchanged with zero file reads and an unchanged cache; hence two
consecutive calls with the same arguments and no cache clear return
byte-identical text and the second call reads no files. -/
theorem generateBundle_cache_hit (env : BundleEnv)
    (cache : List (String × String)) (pp ep : String) :
    (∀ t, lookupA cache (pp ++ ":" ++ ep) = some t →
      generateBundle env cache pp ep false = (.ok t, cache, 0)) ∧
    (∀ r c₁ n, generateBundle env cache pp ep false = (.ok r, c₁, n) →
      generateBundle env c₁ pp ep false = (.ok r, c₁, 0)) := by
  have hpart : ∀ (cache₀ : List (String × String)) (t : String),
      lookupA cache₀ (pp ++ ":" ++ ep) = some t →
      generateBundle env cache₀ pp ep false = (.ok t, cache₀, 0) := by
    intro cache₀ t ht
    rw [generateBundle, if_pos ⟨rfl, by rw [ht]; rfl⟩, ht]
    rfl
  refine ⟨hpart cache, ?_⟩
  intro r c₁ n hok
  by_cases hhit : (lookupA cache (pp ++ ":" ++ ep)).isSome = true
  · obtain ⟨t, ht⟩ := Option.isSome_iff_exists.mp hhit
    rw [hpart cache t ht] at hok
    simp only [Prod.mk.injEq, Except.ok.injEq] at hok
    obtain ⟨hr, hc, -⟩ := hok
    subst hr
    subst hc
    exact hpart cache t ht
  · rw [generateBundle, if_neg (fun h => hhit h.2)] at hok
    split at hok
    · simp at hok
    · rename_i deps n₀ heq
      split at hok
      · simp at hok
      · rename_i bundle n₁ heq₁
        simp only [Prod.mk.injEq, Except.ok.injEq] at hok
        obtain ⟨hr, hc, -⟩ := hok
        subst hr
        subst hc
        exact hpart _ _ (lookupA_mapSet_self cache (pp ++ ":" ++ ep)
          (minifyBundle bundle))

/-- C2 witness: on the cyclic two-file project, a first call populates
the cache and a second identical call returns the same text with zero
reads, applying the theorem's consecutive-call part to the first call's
concrete result. -/
theorem generateBundle_cache_hit_witness :
    generateBundle cycEnv [] ("/p") ("main.js") false =
      (.ok bundleTextC2, [("/p:main.js", bundleTextC2)], 4) ∧
    generateBundle cycEnv [("/p:main.js", bundleTextC2)] ("/p") ("main.js")
        false =
      (.ok bundleTextC2, [("/p:main.js", bundleTextC2)], 0) :=
  ⟨rfl,
   (generateBundle_cache_hit cycEnv [] ("/p") ("main.js")).2 bundleTextC2
     [("/p:main.js", bundleTextC2)] 4 rfl⟩

/-- C3: whenever a `generateBundle` call fails, the error is the wrapped
`BundleGenerationError` of the catch block and the cache state after the
call is exactly the cache state before it (no partial entry, any
pre-existing entry preserved — the cache write happens only after the
full pipeline succeeds); and a resolution failure on a non-cache-hit
call does produce exactly that wrapped failure. -/
theorem generateBundle_error_clean (env : BundleEnv)
    (cache : List (String × String)) (pp ep : String) (force : Bool) :
    (∀ e c₁ n, generateBundle env cache pp ep force = (.error e, c₁, n) →
      c₁ = cache ∧
      ∃ msg,
        e = .BundleGenerationError ("Bundle generation failed: " ++ msg)) ∧
    (∀ e n,
      resolveDeps env (resolveFuel env) (pathJoin pp ep) [] =
        (.error e, n) →
      ¬ (force = false ∧
          (lookupA cache (pp ++ ":" ++ ep)).isSome = true) →
      generateBundle env cache pp ep force =
        (.error
          (.BundleGenerationError ("Bundle generation failed: " ++ e)),
          cache, n)) := by
  refine ⟨?_, ?_⟩
  · intro e c₁ n herr
    rw [generateBundle] at herr
    split at herr
    · simp at herr
    · split at herr
      · rename_i e₀ n₀ heq
        simp only [Prod.mk.injEq, Except.error.injEq] at herr
        obtain ⟨he, hc, -⟩ := herr
        subst he
        exact ⟨hc.symm, e₀, rfl⟩
      · rename_i deps n₀ heq
        split at herr
        · rename_i e₀ n₁ heq₁
          simp only [Prod.mk.injEq, Except.error.injEq] at herr
          obtain ⟨he, hc, -⟩ := herr
          subst he
          exact ⟨hc.symm, e₀, rfl⟩
        · simp at herr
  · intro e n hres hmiss
    rw [generateBundle, if_neg hmiss, hres]

/-- C3 witness: on an empty filesystem the entry read fails, the call
returns the wrapped `BundleGenerationError`, and the (empty) cache is
exactly as before. -/
theorem generateBundle_error_clean_witness :
    generateBundle emptyEnv [] ("/p") ("main.js") false =
      (.error (.BundleGenerationError
        ("Bundle generation failed: ENOENT: no such file /p/main.js")),
        [], 1) ∧
    (([] : List (String × String)) = [] ∧
     ∃ msg,
       BundleError.BundleGenerationError
           ("Bundle generation failed: ENOENT: no such file /p/main.js") =
         .BundleGenerationError ("Bundle generation failed: " ++ msg)) :=
  ⟨rfl,
   (generateBundle_error_clean emptyEnv [] ("/p") ("main.js") false).1
     (.BundleGenerationError
       ("Bundle generation failed: ENOENT: no such file /p/main.js"))
     [] 1 rfl⟩

/-- C10 witness: querying the absent module `C` on the concrete graph
`gAB` returns the empty dependency set. -/
theorem getAllDependencies_unknown_witness :
    gAB.WF ∧ gAB.hasNode idC = false ∧ gAB.getAllDependencies idC = [] :=
  ⟨by decide, by decide,
   getAllDependencies_unknown gAB idC (by decide) (by decide)⟩

/-- C6: after a successful `removeModule(id)` on a well-formed graph,
`id` is absent from every remaining node's outgoing and incoming edge
sets (indeed from every adjacency query whatsoever), absent from the
entry set, and `getModule(id)` fails with `UnknownModule`. -/
theorem removeModule_clean {μ : Type} (g : DepGraph μ) (id : String)
    (g₁ : DepGraph μ) (hwf : g.WF) (h : g.removeModule id = .ok g₁) :
    (∀ x, id ∉ g₁.outgoing x ∧ id ∉ g₁.incoming x) ∧
    id ∉ g₁.entryNodes ∧
    g₁.getModule id = .error (.UnknownModule id) := by
  obtain ⟨-, -, -, -, -, hout, hinc⟩ := hwf
  by_cases hn : g.hasNode id = true
  · rw [DepGraph.removeModule, if_neg (by simp [hn])] at h
    have hg₁ :
        g₁ = { nodes := eraseA g.nodes id
               outgoingEdges := eraseA ((g.incoming id).foldl
                 (fun m src => updateA m src (fun s => setDelete s id))
                 g.outgoingEdges) id
               incomingEdges := eraseA ((g.outgoing id).foldl
                 (fun m tgt => updateA m tgt (fun s => setDelete s id))
                 g.incomingEdges) id
               entryNodes := setDelete g.entryNodes id } := by
      cases h
      rfl
    subst hg₁
    refine ⟨?_, ?_, ?_⟩
    · intro x
      constructor
      · show id ∉ DepGraph.outgoing _ x
        rw [DepGraph.outgoing]
        by_cases hx : x = id
        · subst hx
          rw [lookupA_eraseA_self]
          simp
        · rw [lookupA_eraseA_ne _ hx]
          by_cases hmem : x ∈ g.incoming id
          · obtain ⟨y, hy⟩ := lookupA_foldl_updateA_mem
              (fun s => setDelete s id) (g.incoming id) g.outgoingEdges x hmem
            rw [hy]
            cases y with
            | none => exact List.not_mem_nil id
            | some s =>
              simp only [Option.map_some', Option.getD_some]
              exact not_mem_setDelete_self s id
          · rw [lookupA_foldl_updateA_not_mem _ _ _ _ hmem]
            intro hc
            cases hl : lookupA g.outgoingEdges x with
            | none =>
              rw [hl] at hc
              simp at hc
            | some s =>
              rw [hl] at hc
              simp only [Option.getD_some] at hc
              have := ((hout (x, s) (lookupA_some_mem hl)).2 id hc).2
              exact hmem this
      · show id ∉ DepGraph.incoming _ x
        rw [DepGraph.incoming]
        by_cases hx : x = id
        · subst hx
          rw [lookupA_eraseA_self]
          simp
        · rw [lookupA_eraseA_ne _ hx]
          by_cases hmem : x ∈ g.outgoing id
          · obtain ⟨y, hy⟩ := lookupA_foldl_updateA_mem
              (fun s => setDelete s id) (g.outgoing id) g.incomingEdges x hmem
            rw [hy]
            cases y with
            | none => exact List.not_mem_nil id
            | some s =>
              simp only [Option.map_some', Option.getD_some]
              exact not_mem_setDelete_self s id
          · rw [lookupA_foldl_updateA_not_mem _ _ _ _ hmem]
            intro hc
            cases hl : lookupA g.incomingEdges x with
            | none =>
              rw [hl] at hc
              simp at hc
            | some s =>
              rw [hl] at hc
              simp only [Option.getD_some] at hc
              have := ((hinc (x, s) (lookupA_some_mem hl)).2 id hc).2
              exact hmem this
    · exact not_mem_setDelete_self _ _
    · show DepGraph.getModule _ id = _
      rw [DepGraph.getModule]
      simp [lookupA_eraseA_self]
  · rw [DepGraph.removeModule, if_pos (by simp [hn])] at h
    cases h

/-! ## DFS soundness and completeness for `getAllDependencies` (C1) -/

theorem mem_targetsList {μ : Type} {g : DepGraph μ} {x t : String}
    (h : t ∈ g.outgoing x) : t ∈ g.targetsList := by
  rw [DepGraph.outgoing] at h
  cases hl : lookupA g.outgoingEdges x with
  | none =>
    rw [hl] at h
    cases h
  | some s =>
    rw [hl] at h
    simp only [Option.getD_some] at h
    rw [DepGraph.targetsList]
    rw [List.mem_flatten]
    exact ⟨s, List.mem_map_of_mem _ (lookupA_some_mem hl), h⟩

theorem gadCands_card_lt {μ : Type} (g : DepGraph μ) (id : String) :
    (g.gadCands id).card < g.gadFuel := by
  have h₁ : (g.gadCands id).card ≤ g.targetsList.length + 1 := by
    calc (g.gadCands id).card ≤ (id :: g.targetsList).length :=
          List.toFinset_card_le _
      _ = g.targetsList.length + 1 := by simp
  have h₂ : g.targetsList.length = g.totalTargets := by
    rw [DepGraph.targetsList, DepGraph.totalTargets, List.length_flatten,
      List.map_map]
    rfl
  rw [DepGraph.gadFuel]
  omega

theorem gadFold_spec {μ : Type} (g : DepGraph μ) (C : Finset String)
    (n : Nat)
    (IH : ∀ cur visited deps, cur ∈ C →
      (C.filter (fun z => z ∉ visited)).card < n →
      gadGoSpec g C n cur visited deps) :
    ∀ ts, (∀ t ∈ ts, t ∈ C) →
      ∀ v d, (C.filter (fun z => z ∉ v)).card < n →
      gadFoldSpec g C n ts v d := by
  intro ts
  induction ts with
  | nil =>
    intro _ v d _
    exact ⟨fun x hx => hx, fun y hy => hy, by simp,
      fun x hx => Or.inl hx, fun x hx hxv => absurd hx hxv⟩
  | cons t ts ih =>
    intro hts v d hcard
    have ht : t ∈ C := hts t (List.mem_cons_self t ts)
    have h₁ := IH t v (setAdd d t) ht hcard
    obtain ⟨hv₁, hd₁, hcur₁, hsub₁, hcl₁⟩ := h₁
    have hgrow : ∀ x ∈ v, x ∈ (g.gadGo n t (v, setAdd d t)).1 := hv₁
    have hcard₂ :
        (C.filter (fun z => z ∉ (g.gadGo n t (v, setAdd d t)).1)).card < n :=
      lt_of_le_of_lt (filter_not_mem_card_le C hgrow) hcard
    have h₂ := ih (fun u hu => hts u (List.mem_cons_of_mem t hu))
      (g.gadGo n t (v, setAdd d t)).1 (g.gadGo n t (v, setAdd d t)).2 hcard₂
    obtain ⟨hv₂, hd₂, hts₂, hsub₂, hcl₂⟩ := h₂
    have heta :
        ((g.gadGo n t (v, setAdd d t)).1, (g.gadGo n t (v, setAdd d t)).2) =
          g.gadGo n t (v, setAdd d t) := rfl
    rw [heta] at hv₂ hd₂ hts₂ hsub₂ hcl₂
    have hfold :
        (t :: ts).foldl
            (fun st dep => g.gadGo n dep (st.1, setAdd st.2 dep)) (v, d) =
          ts.foldl (fun st dep => g.gadGo n dep (st.1, setAdd st.2 dep))
            (g.gadGo n t (v, setAdd d t)) := rfl
    unfold gadFoldSpec
    rw [hfold]
    refine ⟨?_, ?_, ?_, ?_, ?_⟩
    · intro x hx
      exact hv₂ x (hv₁ x hx)
    · intro y hy
      exact hd₂ y (hd₁ y (by rw [mem_setAdd]; exact Or.inl hy))
    · intro u hu
      rcases List.mem_cons.mp hu with h | h
      · subst h
        exact ⟨hv₂ u hcur₁, hd₂ u (hd₁ u (by rw [mem_setAdd]; exact Or.inr rfl))⟩
      · exact (hts₂ u h).imp id id
    · intro x hx
      rcases hsub₂ x hx with h | h
      · exact hsub₁ x h
      · exact Or.inr h
    · intro x hx hxv
      by_cases hmem : x ∈ (g.gadGo n t (v, setAdd d t)).1
      · intro u hu
        rcases hcl₁ x hmem hxv u hu with ⟨hu₁, hu₂⟩
        exact ⟨hd₂ u hu₁, hv₂ u hu₂⟩
      · exact hcl₂ x hx hmem

theorem gadGo_spec {μ : Type} (g : DepGraph μ) (C : Finset String)
    (hC : ∀ x t, t ∈ g.outgoing x → t ∈ C) :
    ∀ fuel cur visited deps, cur ∈ C →
      (C.filter (fun z => z ∉ visited)).card < fuel →
      gadGoSpec g C fuel cur visited deps := by
  intro fuel
  induction fuel with
  | zero =>
    intro cur v d _ hcard
    exact absurd hcard (Nat.not_lt_zero _)
  | succ n ihf =>
    intro cur v d hcur hcard
    by_cases hvis : cur ∈ v
    · have hres : g.gadGo (n + 1) cur (v, d) = (v, d) := by
        simp [DepGraph.gadGo, hvis]
      unfold gadGoSpec
      rw [hres]
      exact ⟨fun x hx => hx, fun y hy => hy, hvis,
        fun x hx => Or.inl hx, fun x hx hxv => absurd hx hxv⟩
    · have hcard₁ :
          (C.filter (fun z => z ∉ v ++ [cur])).card < n :=
        lt_of_lt_of_le (filter_not_mem_card_lt C hcur hvis)
          (Nat.lt_succ_iff.mp hcard)
      have hfold := gadFold_spec g C n ihf (g.outgoing cur)
        (fun t ht => hC cur t ht) (v ++ [cur]) d hcard₁
      obtain ⟨hv₁, hd₁, hts₁, hsub₁, hcl₁⟩ := hfold
      have hres : g.gadGo (n + 1) cur (v, d) =
          (g.outgoing cur).foldl
            (fun st dep => g.gadGo n dep (st.1, setAdd st.2 dep))
            (v ++ [cur], d) := by
        simp [DepGraph.gadGo, hvis]
      unfold gadGoSpec
      rw [hres]
      refine ⟨?_, ?_, ?_, ?_, ?_⟩
      · intro x hx
        exact hv₁ x (by simp [hx])
      · exact hd₁
      · exact hv₁ cur (by simp)
      · intro x hx
        rcases hsub₁ x hx with h | h
        · rcases List.mem_append.mp h with h | h
          · exact Or.inl h
          · simp only [List.mem_singleton] at h
            subst h
            exact Or.inr hcur
        · exact Or.inr h
      · intro x hx hxv
        by_cases hmem : x ∈ v ++ [cur]
        · have hxcur : x = cur := by
            rcases List.mem_append.mp hmem with h | h
            · exact absurd h hxv
            · simpa using h
          subst hxcur
          intro t ht
          exact ⟨(hts₁ t ht).2, (hts₁ t ht).1⟩
        · exact hcl₁ x hx hmem

theorem gadFold_sound {μ : Type} (g : DepGraph μ) (root : String) (n : Nat)
    (IH : ∀ cur v d,
      (∀ x ∈ v, Relation.ReflTransGen g.step root x) →
      (∀ y ∈ d, g.reaches root y) → d.Nodup →
      Relation.ReflTransGen g.step root cur →
      (∀ x ∈ (g.gadGo n cur (v, d)).1, Relation.ReflTransGen g.step root x) ∧
      (∀ y ∈ (g.gadGo n cur (v, d)).2, g.reaches root y) ∧
      (g.gadGo n cur (v, d)).2.Nodup) :
    ∀ ts v d : List String, (∀ t ∈ ts, g.reaches root t) →
      (∀ x ∈ v, Relation.ReflTransGen g.step root x) →
      (∀ y ∈ d, g.reaches root y) → d.Nodup →
      (∀ x ∈ (ts.foldl
          (fun st dep => g.gadGo n dep (st.1, setAdd st.2 dep)) (v, d)).1,
        Relation.ReflTransGen g.step root x) ∧
      (∀ y ∈ (ts.foldl
          (fun st dep => g.gadGo n dep (st.1, setAdd st.2 dep)) (v, d)).2,
        g.reaches root y) ∧
      (ts.foldl
        (fun st dep => g.gadGo n dep (st.1, setAdd st.2 dep)) (v, d)).2.Nodup := by
  intro ts
  induction ts with
  | nil =>
    intro v d _ hv hd hnd
    exact ⟨hv, hd, hnd⟩
  | cons t ts ih =>
    intro v d hts hv hd hnd
    have hreach : g.reaches root t := hts t (List.mem_cons_self t ts)
    have hd₁ : ∀ y ∈ setAdd d t, g.reaches root y := by
      intro y hy
      rcases mem_setAdd.mp hy with h | h
      · exact hd y h
      · subst h
        exact hreach
    have h₁ := IH t v (setAdd d t) hv hd₁ (setAdd_nodup hnd t)
      hreach.to_reflTransGen
    obtain ⟨hv₁, hdep₁, hnd₁⟩ := h₁
    have heta :
        ((g.gadGo n t (v, setAdd d t)).1, (g.gadGo n t (v, setAdd d t)).2) =
          g.gadGo n t (v, setAdd d t) := rfl
    have h₂ := ih (g.gadGo n t (v, setAdd d t)).1
      (g.gadGo n t (v, setAdd d t)).2
      (fun u hu => hts u (List.mem_cons_of_mem t hu)) hv₁ hdep₁ hnd₁
    rw [heta] at h₂
    exact h₂

theorem gadGo_sound {μ : Type} (g : DepGraph μ) (root : String) :
    ∀ (fuel : Nat) (cur : String) (v d : List String),
      (∀ x ∈ v, Relation.ReflTransGen g.step root x) →
      (∀ y ∈ d, g.reaches root y) → d.Nodup →
      Relation.ReflTransGen g.step root cur →
      (∀ x ∈ (g.gadGo fuel cur (v, d)).1, Relation.ReflTransGen g.step root x) ∧
      (∀ y ∈ (g.gadGo fuel cur (v, d)).2, g.reaches root y) ∧
      (g.gadGo fuel cur (v, d)).2.Nodup := by
  intro fuel
  induction fuel with
  | zero =>
    intro cur v d hv hd hnd _
    exact ⟨hv, hd, hnd⟩
  | succ n ihf =>
    intro cur v d hv hd hnd hcur
    by_cases hvis : cur ∈ v
    · have hres : g.gadGo (n + 1) cur (v, d) = (v, d) := by
        simp [DepGraph.gadGo, hvis]
      rw [hres]
      exact ⟨hv, hd, hnd⟩
    · have hres : g.gadGo (n + 1) cur (v, d) =
          (g.outgoing cur).foldl
            (fun st dep => g.gadGo n dep (st.1, setAdd st.2 dep))
            (v ++ [cur], d) := by
        simp [DepGraph.gadGo, hvis]
      rw [hres]
      have hts : ∀ t ∈ g.outgoing cur, g.reaches root t := by
        intro t ht
        exact Relation.TransGen.tail' hcur ht
      have hv₁ : ∀ x ∈ v ++ [cur], Relation.ReflTransGen g.step root x := by
        intro x hx
        rcases List.mem_append.mp hx with h | h
        · exact hv x h
        · simp only [List.mem_singleton] at h
          subst h
          exact hcur
      exact gadFold_sound g root n ihf (g.outgoing cur) (v ++ [cur]) d
        hts hv₁ hd hnd

/-- C1: for every graph and every module id, `getAllDependencies(id)`
returns exactly the set of ids reachable from `id` by following one or
more outgoing edges, each id listed once.  Since reachability here is by
paths of length at least one, `id` itself is a member exactly when a
cycle leads back to `id`. -/
theorem getAllDependencies_reachable {μ : Type} (g : DepGraph μ)
    (id : String) :
    (∀ y, y ∈ g.getAllDependencies id ↔ g.reaches id y) ∧
    (g.getAllDependencies id).Nodup := by
  have hC : ∀ x t, t ∈ g.outgoing x → t ∈ g.gadCands id := by
    intro x t ht
    rw [DepGraph.gadCands, List.mem_toFinset]
    exact List.mem_cons_of_mem id (mem_targetsList ht)
  have hid : id ∈ g.gadCands id := by
    rw [DepGraph.gadCands, List.mem_toFinset]
    exact List.mem_cons_self id _
  have hcard :
      ((g.gadCands id).filter (fun z => z ∉ ([] : List String))).card <
        g.gadFuel := by
    calc ((g.gadCands id).filter (fun z => z ∉ ([] : List String))).card
        ≤ (g.gadCands id).card := Finset.card_filter_le _ _
      _ < g.gadFuel := gadCands_card_lt g id
  have hspec := gadGo_spec g (g.gadCands id) hC g.gadFuel id [] [] hid hcard
  obtain ⟨-, -, hin, -, hclosure⟩ := hspec
  have hsound := gadGo_sound g id g.gadFuel id [] []
    (by intro x hx; cases hx) (by intro y hy; cases hy) List.nodup_nil
    Relation.ReflTransGen.refl
  obtain ⟨-, hsnd, hnd⟩ := hsound
  refine ⟨?_, hnd⟩
  intro y
  constructor
  · intro hy
    exact hsnd y hy
  · intro hy
    have hkey : ∀ z, g.reaches id z →
        z ∈ (g.gadGo g.gadFuel id ([], [])).2 ∧
        z ∈ (g.gadGo g.gadFuel id ([], [])).1 := by
      intro z hz
      induction hz with
      | single h =>
        exact hclosure id hin (by intro h₀; cases h₀) _ h
      | tail hxz hstep ih =>
        exact hclosure _ ih.2 (by intro h₀; cases h₀) _ hstep
    exact (hkey y hy).1

/-! ## Execution order correctness (C4) -/

theorem before_append {o Δ : List String} {y x : String} (h : before o y x) :
    before (o ++ Δ) y x := by
  obtain ⟨l₁, l₂, l₃, rfl⟩ := h
  exact ⟨l₁, l₂, l₃ ++ Δ, by simp⟩

theorem before_append_end {o : List String} {y : String} (x : String)
    (h : y ∈ o) : before (o ++ [x]) y x := by
  obtain ⟨s, t, rfl⟩ := List.append_of_mem h
  exact ⟨s, t, [], by simp⟩

theorem ordCands_card_lt {μ : Type} (g : DepGraph μ) :
    g.ordCands.card < g.orderFuel := by
  have h₁ : g.ordCands.card ≤
      g.entryNodes.length + g.nodes.length + g.targetsList.length := by
    calc g.ordCands.card
        ≤ (g.entryNodes ++ g.nodes.map (fun p => p.1) ++
            g.targetsList).length := List.toFinset_card_le _
      _ = g.entryNodes.length + g.nodes.length + g.targetsList.length := by
          rw [List.length_append, List.length_append, List.length_map]
  have h₂ : g.targetsList.length = g.totalTargets := by
    rw [DepGraph.targetsList, DepGraph.totalTargets, List.length_flatten,
      List.map_map]
    rfl
  rw [DepGraph.orderFuel]
  omega

theorem ordFold_spec_of {μ : Type} (g : DepGraph μ) (C : Finset String)
    (n : Nat)
    (IH : ∀ cur v o, cur ∈ C →
      (C.filter (fun z => z ∉ v)).card < n →
      (∀ x ∈ o, x ∈ v) →
      (∀ a ∈ v, a ∉ o → Relation.ReflTransGen g.step a cur) →
      goodOrd g o →
      ordGoSpec g C n cur v o) :
    ∀ ts v o : List String, (∀ t ∈ ts, t ∈ C) →
      (C.filter (fun z => z ∉ v)).card < n →
      (∀ x ∈ o, x ∈ v) →
      (∀ a ∈ v, a ∉ o → ∀ t ∈ ts, Relation.ReflTransGen g.step a t) →
      goodOrd g o →
      ordFoldSpec g C n ts v o := by
  intro ts
  induction ts with
  | nil =>
    intro v o _ _ _ _ hgood
    exact ⟨by simp, [], by simp, List.nodup_nil, by simp, by simp,
      by simp, hgood⟩
  | cons t ts ih =>
    intro v o hts hcard ho hact hgood
    have ht : t ∈ C := hts t (List.mem_cons_self t ts)
    have h₁ := IH t v o ht hcard ho
      (fun a ha hao => hact a ha hao t (List.mem_cons_self t ts)) hgood
    obtain ⟨hcur₁, Δ₁, ho₁, hnd₁, hfresh₁, hC₁, hiff₁, hgood₁⟩ := h₁
    have hsub : ∀ x ∈ v, x ∈ (g.orderGo n t (v, o)).1 :=
      fun x hx => (hiff₁ x).mpr (Or.inl hx)
    have hcard₂ :
        (C.filter (fun z => z ∉ (g.orderGo n t (v, o)).1)).card < n :=
      lt_of_le_of_lt (filter_not_mem_card_le C hsub) hcard
    have ho₂ : ∀ x ∈ (g.orderGo n t (v, o)).2, x ∈ (g.orderGo n t (v, o)).1 := by
      intro x hx
      rw [ho₁] at hx
      rcases List.mem_append.mp hx with h | h
      · exact hsub x (ho x h)
      · exact (hiff₁ x).mpr (Or.inr h)
    have hunp : ∀ a ∈ (g.orderGo n t (v, o)).1, a ∉ (g.orderGo n t (v, o)).2 →
        a ∈ v ∧ a ∉ o := by
      intro a ha hao
      rcases (hiff₁ a).mp ha with h | h
      · refine ⟨h, fun hao₀ => hao ?_⟩
        rw [ho₁]
        exact List.mem_append.mpr (Or.inl hao₀)
      · refine absurd ?_ hao
        rw [ho₁]
        exact List.mem_append.mpr (Or.inr h)
    have hact₂ : ∀ a ∈ (g.orderGo n t (v, o)).1, a ∉ (g.orderGo n t (v, o)).2 →
        ∀ u ∈ ts, Relation.ReflTransGen g.step a u := by
      intro a ha hao u hu
      obtain ⟨hav, hao₀⟩ := hunp a ha hao
      exact hact a hav hao₀ u (List.mem_cons_of_mem t hu)
    have h₂ := ih (g.orderGo n t (v, o)).1 (g.orderGo n t (v, o)).2
      (fun u hu => hts u (List.mem_cons_of_mem t hu)) hcard₂ ho₂ hact₂ hgood₁
    obtain ⟨hts₂, Δ₂, ho₂eq, hnd₂, hfresh₂, hC₂, hiff₂, hgood₂⟩ := h₂
    unfold ordFoldSpec
    refine ⟨?_, Δ₁ ++ Δ₂, ?_, ?_, ?_, ?_, ?_, ?_⟩
    · intro u hu
      rcases List.mem_cons.mp hu with h | h
      · subst h
        exact (hiff₂ u).mpr (Or.inl hcur₁)
      · exact hts₂ u h
    · show (ts.foldl (fun st dep => g.orderGo n dep st)
          (g.orderGo n t (v, o))).2 = o ++ (Δ₁ ++ Δ₂)
      rw [show g.orderGo n t (v, o) =
          ((g.orderGo n t (v, o)).1, (g.orderGo n t (v, o)).2) from rfl]
      rw [ho₂eq, ho₁, List.append_assoc]
    · rw [List.nodup_append]
      refine ⟨hnd₁, hnd₂, ?_⟩
      intro a ha₁ ha₂
      exact hfresh₂ a ha₂ ((hiff₁ a).mpr (Or.inr ha₁))
    · intro a ha
      rcases List.mem_append.mp ha with h | h
      · exact hfresh₁ a h
      · intro hav
        exact hfresh₂ a h ((hiff₁ a).mpr (Or.inl hav))
    · intro a ha
      rcases List.mem_append.mp ha with h | h
      · exact hC₁ a h
      · exact hC₂ a h
    · intro x
      show x ∈ (ts.foldl (fun st dep => g.orderGo n dep st)
          (g.orderGo n t (v, o))).1 ↔ _
      rw [show g.orderGo n t (v, o) =
          ((g.orderGo n t (v, o)).1, (g.orderGo n t (v, o)).2) from rfl]
      rw [hiff₂ x]
      constructor
      · intro h
        rcases h with h | h
        · rcases (hiff₁ x).mp h with h | h
          · exact Or.inl h
          · exact Or.inr (List.mem_append.mpr (Or.inl h))
        · exact Or.inr (List.mem_append.mpr (Or.inr h))
      · intro h
        rcases h with h | h
        · exact Or.inl ((hiff₁ x).mpr (Or.inl h))
        · rcases List.mem_append.mp h with h | h
          · exact Or.inl ((hiff₁ x).mpr (Or.inr h))
          · exact Or.inr h
    · show goodOrd g (ts.foldl (fun st dep => g.orderGo n dep st)
          (g.orderGo n t (v, o))).2
      rw [show g.orderGo n t (v, o) =
          ((g.orderGo n t (v, o)).1, (g.orderGo n t (v, o)).2) from rfl]
      exact hgood₂

theorem ordGo_spec {μ : Type} (g : DepGraph μ) (C : Finset String)
    (hC : ∀ x t, t ∈ g.outgoing x → t ∈ C) :
    ∀ (fuel : Nat) (cur : String) (v o : List String), cur ∈ C →
      (C.filter (fun z => z ∉ v)).card < fuel →
      (∀ x ∈ o, x ∈ v) →
      (∀ a ∈ v, a ∉ o → Relation.ReflTransGen g.step a cur) →
      goodOrd g o →
      ordGoSpec g C fuel cur v o := by
  intro fuel
  induction fuel with
  | zero =>
    intro cur v o _ hcard _ _ _
    exact absurd hcard (Nat.not_lt_zero _)
  | succ n ihf =>
    intro cur v o hcur hcard ho hact hgood
    by_cases hvis : cur ∈ v
    · have hres : g.orderGo (n + 1) cur (v, o) = (v, o) := by
        simp [DepGraph.orderGo, hvis]
      unfold ordGoSpec
      rw [hres]
      exact ⟨hvis, [], by simp, List.nodup_nil, by simp, by simp,
        by simp, hgood⟩
    · have hcard₁ : (C.filter (fun z => z ∉ v ++ [cur])).card < n :=
        lt_of_lt_of_le (filter_not_mem_card_lt C hcur hvis)
          (Nat.lt_succ_iff.mp hcard)
      have ho₁ : ∀ x ∈ o, x ∈ v ++ [cur] :=
        fun x hx => List.mem_append.mpr (Or.inl (ho x hx))
      have hact₁ : ∀ a ∈ v ++ [cur], a ∉ o →
          ∀ t ∈ g.outgoing cur, Relation.ReflTransGen g.step a t := by
        intro a ha hao t ht
        rcases List.mem_append.mp ha with h | h
        · exact (hact a h hao).tail ht
        · simp only [List.mem_singleton] at h
          subst h
          exact Relation.ReflTransGen.single ht
      have hfold := ordFold_spec_of g C n ihf (g.outgoing cur) (v ++ [cur])
        o (fun t ht => hC cur t ht) hcard₁ ho₁ hact₁ hgood
      obtain ⟨hts₁, Δf, hoeq, hndf, hfreshf, hCf, hifff, hgoodf⟩ := hfold
      have hres : g.orderGo (n + 1) cur (v, o) =
          (((g.outgoing cur).foldl (fun st dep => g.orderGo n dep st)
              (v ++ [cur], o)).1,
           ((g.outgoing cur).foldl (fun st dep => g.orderGo n dep st)
              (v ++ [cur], o)).2 ++ [cur]) := by
        simp [DepGraph.orderGo, hvis]
      unfold ordGoSpec
      rw [hres]
      refine ⟨?_, Δf ++ [cur], ?_, ?_, ?_, ?_, ?_, ?_⟩
      · exact (hifff cur).mpr (Or.inl (List.mem_append.mpr (Or.inr
          (List.mem_singleton.mpr rfl))))
      · rw [hoeq, List.append_assoc]
      · rw [List.nodup_append]
        refine ⟨hndf, List.nodup_singleton cur, ?_⟩
        intro a haf hac
        simp only [List.mem_singleton] at hac
        subst hac
        exact hfreshf a haf (List.mem_append.mpr (Or.inr
          (List.mem_singleton.mpr rfl)))
      · intro a ha
        rcases List.mem_append.mp ha with h | h
        · intro hav
          exact hfreshf a h (List.mem_append.mpr (Or.inl hav))
        · simp only [List.mem_singleton] at h
          subst h
          exact hvis
      · intro a ha
        rcases List.mem_append.mp ha with h | h
        · exact hCf a h
        · simp only [List.mem_singleton] at h
          subst h
          exact hcur
      · intro x
        rw [hifff x]
        constructor
        · intro h
          rcases h with h | h
          · rcases List.mem_append.mp h with h | h
            · exact Or.inl h
            · exact Or.inr (List.mem_append.mpr (Or.inr h))
          · exact Or.inr (List.mem_append.mpr (Or.inl h))
        · intro h
          rcases h with h | h
          · exact Or.inl (List.mem_append.mpr (Or.inl h))
          · rcases List.mem_append.mp h with h | h
            · exact Or.inr h
            · exact Or.inl (List.mem_append.mpr (Or.inr h))
      · intro x hx y hy
        rcases List.mem_append.mp hx with hxo | hxc
        · rcases hgoodf x hxo y hy with h | h
          · exact Or.inl (before_append h)
          · exact Or.inr h
        · simp only [List.mem_singleton] at hxc
          subst hxc
          have hyv : y ∈ ((g.outgoing x).foldl
              (fun st dep => g.orderGo n dep st) (v ++ [x], o)).1 :=
            hts₁ y hy
          by_cases hyo : y ∈ ((g.outgoing x).foldl
              (fun st dep => g.orderGo n dep st) (v ++ [x], o)).2
          · exact Or.inl (before_append_end x hyo)
          · rcases (hifff y).mp hyv with h | h
            · rcases List.mem_append.mp h with h | h
              · have hynoto : y ∉ o := by
                  intro hc
                  refine hyo ?_
                  rw [hoeq]
                  exact List.mem_append.mpr (Or.inl hc)
                exact Or.inr (hact y h hynoto)
              · simp only [List.mem_singleton] at h
                subst h
                exact Or.inr Relation.ReflTransGen.refl
            · refine absurd ?_ hyo
              rw [hoeq]
              exact List.mem_append.mpr (Or.inr h)

/-- C4: on a well-formed graph, `getModuleExecutionOrder()` lists every
node exactly once; and whenever a node `x` depends on `y` and `y` cannot
reach `x` back (so the edge `x → y` lies in an acyclic region), the
dependency `y` appears in the output strictly before its dependent `x`. -/
theorem executionOrder_complete {μ : Type} (g : DepGraph μ) (hwf : g.WF) :
    g.getModuleExecutionOrder.Nodup ∧
    (∀ x, x ∈ g.getModuleExecutionOrder ↔ g.hasNode x = true) ∧
    (∀ x y, y ∈ g.outgoing x → ¬ Relation.ReflTransGen g.step y x →
      before g.getModuleExecutionOrder y x) := by
  obtain ⟨hnd, hko, hki, hend, hentry, hout, hinc⟩ := hwf
  have hC : ∀ x t, t ∈ g.outgoing x → t ∈ g.ordCands := by
    intro x t ht
    rw [DepGraph.ordCands, List.mem_toFinset]
    exact List.mem_append.mpr (Or.inr (mem_targetsList ht))
  have hcard : ∀ v : List String,
      (g.ordCands.filter (fun z => z ∉ v)).card < g.orderFuel :=
    fun v => lt_of_le_of_lt (Finset.card_filter_le _ _) (ordCands_card_lt g)
  have IH : ∀ (cur : String) (v o : List String), cur ∈ g.ordCands →
      (g.ordCands.filter (fun z => z ∉ v)).card < g.orderFuel →
      (∀ x ∈ o, x ∈ v) →
      (∀ a ∈ v, a ∉ o → Relation.ReflTransGen g.step a cur) →
      goodOrd g o → ordGoSpec g g.ordCands g.orderFuel cur v o :=
    fun cur v o hcur hcd ho hact hgood =>
      ordGo_spec g g.ordCands hC g.orderFuel cur v o hcur hcd ho hact hgood
  have h₁ := ordFold_spec_of g g.ordCands g.orderFuel IH g.entryNodes [] []
    (fun e he => by
      rw [DepGraph.ordCands, List.mem_toFinset]
      exact List.mem_append.mpr (Or.inl (List.mem_append.mpr (Or.inl he))))
    (hcard []) (fun x hx => hx)
    (fun a ha => absurd ha (List.not_mem_nil a))
    (fun x hx => absurd hx (List.not_mem_nil x))
  obtain ⟨hts₁, Δ₁, hoeq₁, hnd₁, hfresh₁, hC₁, hiff₁, hgood₁⟩ := h₁
  rw [List.nil_append] at hoeq₁
  have hsub₁ : ∀ x ∈ (g.entryNodes.foldl
      (fun st dep => g.orderGo g.orderFuel dep st) ([], [])).2,
      x ∈ (g.entryNodes.foldl
        (fun st dep => g.orderGo g.orderFuel dep st) ([], [])).1 := by
    intro x hx
    rw [hoeq₁] at hx
    exact (hiff₁ x).mpr (Or.inr hx)
  have hact₁ : ∀ a ∈ (g.entryNodes.foldl
      (fun st dep => g.orderGo g.orderFuel dep st) ([], [])).1,
      a ∉ (g.entryNodes.foldl
        (fun st dep => g.orderGo g.orderFuel dep st) ([], [])).2 →
      ∀ t ∈ g.nodes.map (fun p => p.1),
        Relation.ReflTransGen g.step a t := by
    intro a ha hao t _
    rcases (hiff₁ a).mp ha with h | h
    · exact absurd h (List.not_mem_nil a)
    · rw [hoeq₁] at hao
      exact absurd h hao
  have h₂ := ordFold_spec_of g g.ordCands g.orderFuel IH
    (g.nodes.map (fun p => p.1))
    (g.entryNodes.foldl (fun st dep => g.orderGo g.orderFuel dep st)
      ([], [])).1
    (g.entryNodes.foldl (fun st dep => g.orderGo g.orderFuel dep st)
      ([], [])).2
    (fun k hk => by
      rw [DepGraph.ordCands, List.mem_toFinset]
      exact List.mem_append.mpr (Or.inl (List.mem_append.mpr (Or.inr hk))))
    (hcard _) hsub₁ hact₁ hgood₁
  obtain ⟨hts₂, Δ₂, hoeq₂, hnd₂, hfresh₂, hC₂, hiff₂, hgood₂⟩ := h₂
  have hmap : (g.nodes.map (fun p => p.1)).foldl
      (fun st dep => g.orderGo g.orderFuel dep st)
      (g.entryNodes.foldl (fun st dep => g.orderGo g.orderFuel dep st)
        ([], [])) =
      g.nodes.foldl (fun st p => g.orderGo g.orderFuel p.1 st)
        (g.entryNodes.foldl (fun st e => g.orderGo g.orderFuel e st)
          ([], [])) := List.foldl_map _ _ _ _
  rw [hmap] at hts₂ hoeq₂ hiff₂ hgood₂
  have hdef : g.getModuleExecutionOrder =
      (g.nodes.foldl (fun st p => g.orderGo g.orderFuel p.1 st)
        (g.entryNodes.foldl (fun st e => g.orderGo g.orderFuel e st)
          ([], []))).2 := rfl
  have hCtoNode : ∀ x, x ∈ g.ordCands → x ∈ g.nodes.map (fun p => p.1) := by
    intro x hx
    rw [DepGraph.ordCands, List.mem_toFinset] at hx
    rcases List.mem_append.mp hx with h | h
    · rcases List.mem_append.mp h with h | h
      · exact hentry x h
      · exact h
    · rw [DepGraph.targetsList, List.mem_flatten] at h
      obtain ⟨l, hl, hxl⟩ := h
      rw [List.mem_map] at hl
      obtain ⟨p, hp, rfl⟩ := hl
      exact ((hout p hp).2 x hxl).1
  have hmem : ∀ x, x ∈ g.getModuleExecutionOrder ↔ g.hasNode x = true := by
    intro x
    rw [hdef, hoeq₂]
    constructor
    · intro hx
      rcases List.mem_append.mp hx with h | h
      · rw [hoeq₁] at h
        rw [hasNode_iff]
        exact hCtoNode x (hC₁ x h)
      · rw [hasNode_iff]
        exact hCtoNode x (hC₂ x h)
    · intro hx
      rw [hasNode_iff] at hx
      have hx₂ := hts₂ x hx
      rcases (hiff₂ x).mp hx₂ with h | h
      · rcases (hiff₁ x).mp h with h | h
        · exact absurd h (List.not_mem_nil x)
        · refine List.mem_append.mpr (Or.inl ?_)
          rw [hoeq₁]
          exact h
      · exact List.mem_append.mpr (Or.inr h)
  refine ⟨?_, hmem, ?_⟩
  · rw [hdef, hoeq₂, List.nodup_append]
    refine ⟨by rw [hoeq₁]; exact hnd₁, hnd₂, ?_⟩
    intro a ha₁ ha₂
    exact hfresh₂ a ha₂ (hsub₁ a ha₁)
  · intro x y hy hreach
    have hxnode : g.hasNode x = true := by
      cases hl : lookupA g.outgoingEdges x with
      | none =>
        rw [DepGraph.outgoing, hl] at hy
        cases hy
      | some s =>
        rw [hasNode_iff, ← hko, ← lookupA_isSome_iff, hl]
        rfl
    have hx : x ∈ g.getModuleExecutionOrder := (hmem x).mpr hxnode
    rw [hdef] at hx ⊢
    rcases hgood₂ x hx y hy with h | h
    · exact h
    · exact absurd h hreach

/-- C4 witness: the concrete graph `gAB` (`A(entry) → B`) yields an
execution order listing `A` and `B` exactly once with the dependency
ordering guarantee. -/
theorem executionOrder_complete_witness :
    gAB.WF ∧
    (gAB.getModuleExecutionOrder.Nodup ∧
     (∀ x, x ∈ gAB.getModuleExecutionOrder ↔ gAB.hasNode x = true) ∧
     (∀ x y, y ∈ gAB.outgoing x → ¬ Relation.ReflTransGen gAB.step y x →
        before gAB.getModuleExecutionOrder y x)) :=
  ⟨by decide, executionOrder_complete gAB (by decide)⟩

/-- C6 witness: removing module `B` from the concrete graph `gAB` scrubs
`B` from every adjacency set, the entry set, and the node map. -/
theorem removeModule_clean_witness :
    gAB.WF ∧ gAB.removeModule idB = .ok gABremB ∧
    ((∀ x, idB ∉ gABremB.outgoing x ∧ idB ∉ gABremB.incoming x) ∧
     idB ∉ gABremB.entryNodes ∧
     gABremB.getModule idB = .error (.UnknownModule idB)) :=
  ⟨by decide, by decide,
   removeModule_clean gAB idB gABremB (by decide) (by decide)⟩

end ModuBuild
